import Mathlib

/-!
# Verification of the consistent-hashing ring (`hashring.go`)

This file shallowly embeds `src/go/exp/container/hashring/hashring.go` and
proves or refutes the frozen claims about it.

Modelling conventions:

* Go maps (`map[uint32]Node`, `map[Node]struct{}`, `map[Node]int`) are
  modelled as association lists / lists without duplicate keys, mutated by
  `mapSet`/`mapDel`/`setInsert`/`setErase` which reproduce Go map update,
  delete, and set-insert semantics deterministically.
* `uint32` ring positions and hash values are modelled as `Nat`; no
  arithmetic is performed on them by the ring code (only comparisons), so
  no wrap-around modelling is needed.
* The hash algorithm and the node-key formatter are external capabilities
  (they are not part of the repository sources under scrutiny); they are
  modelled as a `Caps` record of pure functions, exactly as the spec's §6
  interface describes them.
* The placement and removal loops of the source mutate their loop bound
  (`numReps++`) while iterating and hence need not terminate; they are
  modelled with explicit fuel, returning `none` when the fuel runs out
  (which corresponds to the Go loop not having terminated within that
  many iterations).
* `float64` arithmetic in weighted placement is modelled exactly over `ℚ`
  (the constant `1e10` is the exact integer `10^10`).
-/

namespace HashRingSpec

/-- External capabilities of the ring, per the spec's §6 interface.
`fmtKey` is the node-key formatter (`Formatter.FormatNodeKey`),
`derive` is the hash algorithm turning a label into 1..k ring positions,
`keyHash` is the hash used for lookup keys (`getHashKey`).
These live outside the repository sources and are parameters of the model. -/
structure Caps (Node : Type) where
  fmtKey : Node → Nat → String
  derive : String → List Nat
  keyHash : String → Nat

/-- The ring state: the fields of Go's `HashRing` struct.
`sortedKeys : []uint32`, `nodeByKey : map[uint32]Node`,
`allNodes : map[Node]struct{}`, `weightByNode : map[Node]int`,
`isWeighted : bool`, `numReps : int`.  The two external-capability fields
(`hashAlg`, `nodeKeyFormatter`) are carried separately as `Caps`. -/
structure HashRing (Node : Type) where
  sortedKeys : List Nat
  nodeByKey : List (Nat × Node)
  allNodes : List Node
  weightByNode : List (Node × Int)
  isWeighted : Bool
  numReps : Nat
deriving DecidableEq, Repr

variable {Node : Type}

/-- Go map read `m[k]` (comma-ok form). -/
def mapGet (m : List (Nat × Node)) (k : Nat) : Option Node :=
  (m.find? (fun e => e.1 = k)).map Prod.snd

/-- Go map write `m[k] = v`: replace the binding if present, else append. -/
def mapSet : List (Nat × Node) → Nat → Node → List (Nat × Node)
  | [], k, v => [(k, v)]
  | e :: m, k, v => if e.1 = k then (k, v) :: m else e :: mapSet m k v

/-- Go map `delete(m, k)`. -/
def mapDel (m : List (Nat × Node)) (k : Nat) : List (Nat × Node) :=
  m.filter (fun e => e.1 ≠ k)

/-- Go set insert `s[n] = struct{}{}` (native node equality). -/
def setInsert [DecidableEq Node] (s : List Node) (n : Node) : List Node :=
  if n ∈ s then s else s ++ [n]

/-- Go set delete `delete(s, n)` (native node equality). -/
def setErase [DecidableEq Node] (s : List Node) (n : Node) : List Node :=
  s.filter (fun m => m ≠ n)

/-- Go map read on the weight table `c.weightByNode[node]`
(zero value `0` when absent). -/
def lookupWeight [DecidableEq Node] (w : List (Node × Int)) (n : Node) : Int :=
  ((w.find? (fun e => e.1 = n)).map Prod.snd).getD 0

/-- `isSameNode`: two nodes are the same iff their replica-0 formatter
labels coincide (`hashring.go:413-416`). -/
def isSameNode (caps : Caps Node) (n1 n2 : Node) : Bool :=
  caps.fmtKey n1 0 = caps.fmtKey n2 0

/-- Modelled from the spec: `getIterateHashKeyForNode` is the composition
of the two external capabilities — render the `(node, replica)` label with
the formatter and derive its 1..k ring positions with the hash algorithm.
The function itself is not among the sources (only its callers are); §6 of
the spec fixes exactly this interface. -/
def getIterateHashKeyForNode (caps : Caps Node) (node : Node) (i : Nat) : List Nat :=
  caps.derive (caps.fmtKey node i)

/-- `New`: constructs the ring.  `weights`, `numReps` and `isW` stand for
the construction options (`initialWeights`, replica count — default 160 —
and the weighted flag); per the constructor, weighting is forced off when
no weights were supplied. -/
def New [DecidableEq Node] (weights : List (Node × Int)) (numReps : Nat)
    (isW : Bool) : HashRing Node :=
  { sortedKeys := []
    nodeByKey := []
    allNodes := []
    weightByNode := weights
    isWeighted := isW && !weights.isEmpty
    numReps := numReps }

/-- `RemoveAllNodes` (`hashring.go:107-112`): resets `sortedKeys`,
`nodeByKey` and `allNodes`.  (Note: the source does not touch
`weightByNode`.) -/
def RemoveAllNodes (st : HashRing Node) : HashRing Node :=
  { st with sortedKeys := [], nodeByKey := [], allNodes := [] }

/-- `tailSearch` (`hashring.go:386-395`): `slices.BinarySearchFunc` with a
comparator returning `0` when `v ≥ key` and `-1` otherwise.  On the sorted
`sortedKeys` this returns the smallest index whose entry is `≥ key`
(`found = true`), or `(length, false)` when every entry is `< key`;
modelled by the first index satisfying the comparator, which is what
binary search computes on a list sorted for this comparator. -/
def tailSearch (keys : List Nat) (key : Nat) : Nat × Bool :=
  match keys.findIdx? (fun v => decide (key ≤ v)) with
  | some i => (i, true)
  | none => (keys.length, false)

/-- `getNodeByHashKeyIndex` (`hashring.go:206-209`):
`c.nodeByKey[c.sortedKeys[keyIndex]]`.  Out-of-range indexing (a Go panic)
and a missing key (Go's zero value) are modelled by `getD` defaults; the
ring invariants keep both in range. -/
def getNodeByHashKeyIndex [Inhabited Node] (st : HashRing Node) (keyIndex : Nat) : Node :=
  (mapGet st.nodeByKey (st.sortedKeys.getD keyIndex 0)).getD default

/-- `getNodeByHashKey` (`hashring.go:188-204`): exact-match lookup, then
tail search, wrapping to index 0 when nothing is `≥ hash`. -/
def getNodeByHashKey [Inhabited Node] (st : HashRing Node) (hash : Nat) : Option Node :=
  if st.sortedKeys.isEmpty then none
  else
    match mapGet st.nodeByKey hash with
    | some rv => some rv
    | none =>
      let fk := tailSearch st.sortedKeys hash
      let firstKey := if fk.2 then fk.1 else 0
      some (getNodeByHashKeyIndex st firstKey)

/-- `getPrimaryNode` (`hashring.go:175-177`). -/
def getPrimaryNode [Inhabited Node] (caps : Caps Node) (st : HashRing Node)
    (name : String) : Option Node :=
  getNodeByHashKey st (caps.keyHash name)

/-- `Get` (`hashring.go:114-121`): `(zero, false)` on an empty position
table is modelled as `none`. -/
def Get [Inhabited Node] (caps : Caps Node) (st : HashRing Node)
    (name : String) : Option Node :=
  if st.nodeByKey.isEmpty then none
  else getPrimaryNode caps st name

/-- The yielding loop of `GetSince`: walk the remaining indices, yielding
each owner not seen before (`nodesSet` is the `seen` accumulator). -/
def collectSince [DecidableEq Node] [Inhabited Node] (st : HashRing Node)
    (seen : List Node) : List Nat → List Node
  | [] => []
  | i :: is =>
    let n := getNodeByHashKeyIndex st i
    if n ∈ seen then collectSince st seen is
    else n :: collectSince st (n :: seen) is

/-- `GetSince` (`hashring.go:124-161`), fully consumed.  The Go `for` loop
`for i := start + 1; i != start; i++` with the wrap-to-0 branch visits
exactly the indices `(start+1+k) % len` for `k < len - 1`, yielding owners
not yet yielded; the sequence is modelled as the list of yielded nodes. -/
def GetSince [DecidableEq Node] [Inhabited Node] (caps : Caps Node)
    (st : HashRing Node) (name : String) : List Node :=
  if st.nodeByKey.isEmpty then []
  else
    let fk := tailSearch st.sortedKeys (caps.keyHash name)
    let firstKey := if fk.2 then fk.1 else 0
    let firstNode := getNodeByHashKeyIndex st firstKey
    let len := st.sortedKeys.length
    let idxs := (List.range (len - 1)).map (fun k => (firstKey + 1 + k) % len)
    firstNode :: collectSince st [firstNode] idxs

/-- `updateSortedNodes` (`hashring.go:397-411`): recollect the keys of
`nodeByKey` and sort ascending.  (The capacity-reuse branch is memory
management with no observable effect on the contents.) -/
def updateSortedNodes (st : HashRing Node) : HashRing Node :=
  { st with sortedKeys := List.insertionSort (· ≤ ·) (st.nodeByKey.map Prod.fst) }

/-- Inner loop of `addNodeWithoutSort` (`hashring.go:318-330`): scan the
derived `positions` with index `j`, breaking when `i+j > numReps`,
skipping an occupied position while growing the budget (`numReps++`), and
writing the node at a fresh position.  Returns the updated budget and map. -/
def addInner [DecidableEq Node] (node : Node) (i : Nat) :
    List Nat → Nat → Nat → List (Nat × Node) → Nat × List (Nat × Node)
  | [], _, reps, m => (reps, m)
  | pos :: rest, j, reps, m =>
    if reps < i + j then (reps, m)
    else if (mapGet m pos).isSome then addInner node i rest (j + 1) (reps + 1) m
    else addInner node i rest (j + 1) reps (mapSet m pos node)

/-- Outer loop of `addNodeWithoutSort` (`hashring.go:312-331`): iterate
while `i < numReps`; a replica index with no derivable positions exits the
loop (`break` — its `numReps++; i++` are dead writes); otherwise run the
inner scan and advance `i` by the number of derived positions.  The loop
bound grows inside the loop, so it is run on fuel; `none` means the Go
loop has not terminated within `fuel` iterations. -/
def addOuter [DecidableEq Node] (caps : Caps Node) (node : Node) :
    Nat → Nat → Nat → List (Nat × Node) → Option (List (Nat × Node))
  | 0, _, _, _ => none
  | fuel + 1, i, reps, m =>
    if i < reps then
      let ps := getIterateHashKeyForNode caps node i
      if ps.isEmpty then some m
      else
        let rm := addInner node i ps 0 reps m
        addOuter caps node fuel (i + ps.length) rm.1 rm.2
    else some m

/-- `addNodeWithoutSort` (`hashring.go:304-335`): run the placement loop
with budget `numReps`, then record the node as a member. -/
def addNodeWithoutSort [DecidableEq Node] (caps : Caps Node) (st : HashRing Node)
    (node : Node) (numReps : Nat) (fuel : Nat) : Option (HashRing Node) :=
  (addOuter caps node fuel 0 numReps st.nodeByKey).map fun m =>
    { st with nodeByKey := m, allNodes := setInsert st.allNodes node }

/-- `addNoWeightNodes` (`hashring.go:292-301`): place every node with
budget `c.numReps`, then rebuild the sorted index. -/
def addNoWeightNodes [DecidableEq Node] (caps : Caps Node) (st : HashRing Node)
    (nodes : List Node) (fuel : Nat) : Option (HashRing Node) :=
  (nodes.foldl (fun acc n =>
      acc.bind (fun s => addNodeWithoutSort caps s n st.numReps fuel))
    (some st)).map updateSortedNodes

/-- Inner loop of `removeNoWeightNodes` (`hashring.go:366-375`): like the
placement scan, but deleting positions whose owner is formatter-equal to
the removed node and growing the budget when the owner is a different
node. -/
def removeInner [DecidableEq Node] (caps : Caps Node) (node : Node) (i : Nat) :
    List Nat → Nat → Nat → List (Nat × Node) → Nat × List (Nat × Node)
  | [], _, reps, m => (reps, m)
  | pos :: rest, j, reps, m =>
    if reps < i + j then (reps, m)
    else
      match mapGet m pos with
      | some n =>
        if isSameNode caps n node then
          removeInner caps node i rest (j + 1) reps (mapDel m pos)
        else removeInner caps node i rest (j + 1) (reps + 1) m
      | none => removeInner caps node i rest (j + 1) reps m

/-- Outer loop of `removeNoWeightNodes` (`hashring.go:358-377`): here a
replica index with no derivable positions is skipped with `numReps++; i++;
continue` (unlike the `break` in placement). -/
def removeOuter [DecidableEq Node] (caps : Caps Node) (node : Node) :
    Nat → Nat → Nat → List (Nat × Node) → Option (Nat × List (Nat × Node))
  | 0, _, _, _ => none
  | fuel + 1, i, reps, m =>
    if i < reps then
      let ps := getIterateHashKeyForNode caps node i
      if ps.isEmpty then removeOuter caps node fuel (i + 1) (reps + 1) m
      else
        let rm := removeInner caps node i ps 0 reps m
        removeOuter caps node fuel (i + ps.length) rm.1 rm.2
    else some (reps, m)

/-- `removeNoWeightNodes` (`hashring.go:354-384`): note that `numReps` is
read once and its in-loop growth carries over across the removed nodes;
each node is dropped from the member set and the sorted index is rebuilt
at the end. -/
def removeNoWeightNodes [DecidableEq Node] (caps : Caps Node) (st : HashRing Node)
    (nodes : List Node) (fuel : Nat) : Option (HashRing Node) :=
  (nodes.foldl (fun acc node =>
      acc.bind (fun rms =>
        (removeOuter caps node fuel 0 rms.1 rms.2.1).map
          (fun rm => (rm.1, rm.2, setErase rms.2.2 node))))
    (some (st.numReps, st.nodeByKey, st.allNodes))).map
    (fun rms => updateSortedNodes { st with nodeByKey := rms.2.1, allNodes := rms.2.2 })

/-- The members to be removed by `setNoWeightNodes` (`hashring.go:227-242`):
current members whose replica-0 label matches no entry of `nodes`. -/
def toRemoveList (caps : Caps Node) (st : HashRing Node) (nodes : List Node) : List Node :=
  st.allNodes.filter (fun k => !(nodes.any (fun v => isSameNode caps k v)))

/-- The nodes to be added by `setNoWeightNodes` (`hashring.go:249-260`):
entries of `nodes` whose replica-0 label matches no current member
(computed against the post-removal member set). -/
def toAddList (caps : Caps Node) (memb : List Node) (nodes : List Node) : List Node :=
  nodes.filter (fun k => !(memb.any (fun v => isSameNode caps k v)))

/-- `setNoWeightNodes` (`hashring.go:223-261`): compute the members to
remove; if their number equals `len(nodes)` take the full-clear path,
otherwise remove them one by one; then add the missing entries. -/
def setNoWeightNodes [DecidableEq Node] (caps : Caps Node) (st : HashRing Node)
    (nodes : List Node) (fuel : Nat) : Option (HashRing Node) :=
  let toRemove := toRemoveList caps st nodes
  let st1 := if toRemove.length = nodes.length then some (RemoveAllNodes st)
             else removeNoWeightNodes caps st toRemove fuel
  st1.bind fun s1 => addNoWeightNodes caps s1 (toAddList caps s1.allNodes nodes) fuel

/-- `pointerPerServer` (`hashring.go:277-281`): the per-node position
budget `int(math.Floor(percent * numReps * nodeCount + 1e10))` with
`percent = thisWeight / totalWeight`.  The `float64` computation is
modelled exactly over `ℚ` (`1e10` is the exact integer `10^10`); casting
the floor to a loop bound is `Int.toNat` (a negative bound runs the loop
zero times, like a negative Go `int`). -/
def pointerPerServer (thisWeight totalWeight : Int) (numReps nodeCount : Nat) : Nat :=
  (Int.floor ((thisWeight : ℚ) / (totalWeight : ℚ) * (numReps : ℚ) * (nodeCount : ℚ)
    + 10 ^ 10)).toNat

/-- `setWeightNodes` (`hashring.go:264-285`): clear everything, total the
weights of the target set, place every node with its proportional budget,
and rebuild the sorted index.  Reads `c.weightByNode`, which
`RemoveAllNodes` leaves in place. -/
def setWeightNodes [DecidableEq Node] (caps : Caps Node) (st : HashRing Node)
    (nodes : List Node) (fuel : Nat) : Option (HashRing Node) :=
  let totalWeight : Int :=
    nodes.foldl (fun acc n => acc + lookupWeight st.weightByNode n) 0
  (nodes.foldl (fun acc n =>
      acc.bind (fun s => addNodeWithoutSort caps s n
        (pointerPerServer (lookupWeight st.weightByNode n) totalWeight
          st.numReps nodes.length) fuel))
    (some (RemoveAllNodes st))).map updateSortedNodes

/-- `addWeightNodes` (`hashring.go:287-290`): full weighted recompute over
the union of current members and the new nodes. -/
def addWeightNodes [DecidableEq Node] (caps : Caps Node) (st : HashRing Node)
    (nodes : List Node) (fuel : Nat) : Option (HashRing Node) :=
  setWeightNodes caps st (st.allNodes ++ nodes) fuel

/-- `removeWeightNodes` (`hashring.go:345-351`): drop the nodes from the
member set, then do a full weighted recompute of the remainder. -/
def removeWeightNodes [DecidableEq Node] (caps : Caps Node) (st : HashRing Node)
    (nodes : List Node) (fuel : Nat) : Option (HashRing Node) :=
  let remaining := nodes.foldl setErase st.allNodes
  setWeightNodes caps { st with allNodes := remaining } remaining fuel

/-- `AddNodes` (`hashring.go:91-98`). -/
def AddNodes [DecidableEq Node] (caps : Caps Node) (st : HashRing Node)
    (nodes : List Node) (fuel : Nat) : Option (HashRing Node) :=
  if st.isWeighted then addWeightNodes caps st nodes fuel
  else addNoWeightNodes caps st nodes fuel

/-- `SetNodes` (`hashring.go:100-105`). -/
def SetNodes [DecidableEq Node] (caps : Caps Node) (st : HashRing Node)
    (nodes : List Node) (fuel : Nat) : Option (HashRing Node) :=
  if st.isWeighted then setWeightNodes caps st nodes fuel
  else setNoWeightNodes caps st nodes fuel

/-- `RemoveNodes` (`hashring.go:337-343`). -/
def RemoveNodes [DecidableEq Node] (caps : Caps Node) (st : HashRing Node)
    (nodes : List Node) (fuel : Nat) : Option (HashRing Node) :=
  if st.isWeighted then removeWeightNodes caps st nodes fuel
  else removeNoWeightNodes caps st nodes fuel

/-- Ring states reachable from construction through the public membership
operations, each completing within some fuel (a `none` is a Go call that
has not terminated). -/
inductive Reachable [DecidableEq Node] (caps : Caps Node) : HashRing Node → Prop where
  | init (weights : List (Node × Int)) (numReps : Nat) (isW : Bool) :
      Reachable caps (New weights numReps isW)
  | add (st st' : HashRing Node) (ns : List Node) (fuel : Nat) :
      Reachable caps st → AddNodes caps st ns fuel = some st' → Reachable caps st'
  | set (st st' : HashRing Node) (ns : List Node) (fuel : Nat) :
      Reachable caps st → SetNodes caps st ns fuel = some st' → Reachable caps st'
  | remove (st st' : HashRing Node) (ns : List Node) (fuel : Nat) :
      Reachable caps st → RemoveNodes caps st ns fuel = some st' → Reachable caps st'
  | removeAll (st : HashRing Node) :
      Reachable caps st → Reachable caps (RemoveAllNodes st)

/-! ## Concrete capability instances used by the counterexamples

The hash algorithm and formatter are external capabilities; the spec (§6)
requires them only to be deterministic, with `derive` free to return any
1..k positions.  The instances below exercise the hash-collision and
empty-derivation corners that the spec's interface permits. -/

/-- A formatter with pairwise-distinct labels: node `n`, replica `i` is
rendered as `n+1` copies of `'n'` followed by `i+1` copies of `'r'`. -/
def cexFmt : Nat → Nat → String :=
  fun n i => String.mk (List.replicate (n + 1) 'n' ++ List.replicate (i + 1) 'r')

/-- Capabilities with a cross-node hash collision: the labels of node 0
replica 0 and node 1 replica 0 both derive position 10; node 1 replica 1
derives position 30; `numReps = 1` keeps runs small. -/
def cexCaps : Caps Nat :=
  { fmtKey := cexFmt
    derive := fun l =>
      if l = cexFmt 0 0 then [10]
      else if l = cexFmt 1 0 then [10]
      else if l = cexFmt 1 1 then [30]
      else []
    keyHash := fun _ => 7 }

/-- State after `AddNodes(0)` on an unweighted ring with `numReps = 1`. -/
def cexSt1 : HashRing Nat :=
  { sortedKeys := [10], nodeByKey := [(10, 0)], allNodes := [0],
    weightByNode := [], isWeighted := false, numReps := 1 }

/-- State after a further `AddNodes(1)`: node 1's replica-0 position 10
collided with node 0's, so the budget grew and node 1 owns position 30. -/
def cexSt2 : HashRing Nat :=
  { sortedKeys := [10, 30], nodeByKey := [(10, 0), (30, 1)], allNodes := [0, 1],
    weightByNode := [], isWeighted := false, numReps := 1 }

/-- State after a further `RemoveNodes(0)`. -/
def cexSt3 : HashRing Nat :=
  { sortedKeys := [30], nodeByKey := [(30, 1)], allNodes := [1],
    weightByNode := [], isWeighted := false, numReps := 1 }

/-- State after a further `RemoveNodes(1)`: the removal scan visits only
replica 0 (position 10, now absent, so the budget is not grown) and never
reaches the collision-shifted position 30, which stays behind as an
orphan owned by the departed node 1: the member set is empty while the
position table is not. -/
def cexSt4 : HashRing Nat :=
  { sortedKeys := [30], nodeByKey := [(30, 1)], allNodes := [],
    weightByNode := [], isWeighted := false, numReps := 1 }

/-- Result of `SetNodes(1)` on `cexSt2`: the full-clear path rebuilt node
1 from scratch, so it now owns position 10 (no longer colliding) instead
of its previous position 30. -/
def cexStT : HashRing Nat :=
  { sortedKeys := [10], nodeByKey := [(10, 1)], allNodes := [1],
    weightByNode := [], isWeighted := false, numReps := 1 }

/-- The empty unweighted ring with `numReps = 1` after the second
`SetNodes([])` of the C10 counterexample. -/
def cexSt5 : HashRing Nat :=
  { sortedKeys := [], nodeByKey := [], allNodes := [],
    weightByNode := [], isWeighted := false, numReps := 1 }

/-- Capabilities with a formatter collision: node 1's replica-0 label
equals node 0's replica-0 label (so `isSameNode 0 1` holds) while node 1's
replica-1 label derives a fresh position. -/
def c9Caps : Caps Nat :=
  { fmtKey := fun n i => if n = 1 && i = 0 then cexFmt 0 0 else cexFmt n i
    derive := fun l =>
      if l = cexFmt 0 0 then [10] else if l = cexFmt 1 1 then [30] else []
    keyHash := fun _ => 0 }

/-- Ring with member 0 under the formatter-collision capabilities. -/
def c9St1 : HashRing Nat :=
  { sortedKeys := [10], nodeByKey := [(10, 0)], allNodes := [0],
    weightByNode := [], isWeighted := false, numReps := 1 }

/-- Ring with the two formatter-equal members 0 and 1. -/
def c9St2 : HashRing Nat :=
  { sortedKeys := [10, 30], nodeByKey := [(10, 0), (30, 1)], allNodes := [0, 1],
    weightByNode := [], isWeighted := false, numReps := 1 }

/-- Capabilities where node 7's replica 0 derives no position at all while
replica 1 derives position 10. -/
def c5Caps : Caps Nat :=
  { fmtKey := cexFmt
    derive := fun l => if l = cexFmt 7 1 then [10] else []
    keyHash := fun _ => 0 }

/-- Result of `AddNodes(7)` with `numReps = 2` under `c5Caps`: the
zero-position replica 0 makes the placement loop `break`, so no position
at all is placed — in particular replica 1's position 10 is never tried —
yet node 7 still becomes a member. -/
def c5St : HashRing Nat :=
  { sortedKeys := [], nodeByKey := [], allNodes := [7],
    weightByNode := [], isWeighted := false, numReps := 2 }

/-! ## Invariants and specification helpers -/

/-- Between public calls the sorted index is exactly the ascending sort of
the position table's keys (`updateSortedNodes` re-establishes this after
every mutation). -/
def SortSync (st : HashRing Node) : Prop :=
  st.sortedKeys = List.insertionSort (· ≤ ·) (st.nodeByKey.map Prod.fst)

/-- The position table, as a Go map, has pairwise-distinct keys. -/
def KeysNodup (st : HashRing Node) : Prop :=
  (st.nodeByKey.map Prod.fst).Nodup

/-- Keep-first-occurrence deduplication with an initial `seen` set: the
reference description of a yield-unless-already-yielded loop. -/
def keepNew [DecidableEq α] (seen : List α) : List α → List α
  | [] => []
  | a :: l => if a ∈ seen then keepNew seen l else a :: keepNew (a :: seen) l

/-- The index at which `GetSince` starts: the tail-search result for the
hashed key, wrapping to 0 when nothing is `≥` it. -/
def startIndex (caps : Caps Node) (st : HashRing Node) (name : String) : Nat :=
  let fk := tailSearch st.sortedKeys (caps.keyHash name)
  if fk.2 then fk.1 else 0

/-- The owners of the sorted positions read clockwise starting at index
`start` and wrapping around, one entry per stored position. -/
def clockwiseOwners [Inhabited Node] (st : HashRing Node) (start : Nat) : List Node :=
  (List.range st.sortedKeys.length).map
    (fun k => getNodeByHashKeyIndex st ((start + k) % st.sortedKeys.length))

/-! ## Basic lemmas about the map and set model -/

theorem mapGet_cons (a : Nat) (b : Node) (m : List (Nat × Node)) (k : Nat) :
    mapGet ((a, b) :: m) k = if a = k then some b else mapGet m k := by
  rw [mapGet, List.find?_cons]
  by_cases h : a = k
  · simp [h]
  · simp [h, mapGet]

theorem mapGet_isSome_iff (m : List (Nat × Node)) (k : Nat) :
    (mapGet m k).isSome ↔ k ∈ m.map Prod.fst := by
  induction m with
  | nil => simp [mapGet]
  | cons e m ih =>
    obtain ⟨a, b⟩ := e
    rw [mapGet_cons, List.map_cons, List.mem_cons]
    by_cases h : a = k
    · simp [h]
    · rw [if_neg h, ih]
      constructor
      · exact Or.inr
      · rintro (h2 | hm)
        · exact absurd h2.symm h
        · exact hm

theorem mapGet_eq_none_iff (m : List (Nat × Node)) (k : Nat) :
    mapGet m k = none ↔ k ∉ m.map Prod.fst := by
  rw [← mapGet_isSome_iff, Option.isSome_iff_ne_none]
  tauto

theorem mapGet_mapSet (m : List (Nat × Node)) (k : Nat) (v : Node) (p : Nat) :
    mapGet (mapSet m k v) p = if p = k then some v else mapGet m p := by
  induction m with
  | nil =>
    rw [mapSet, mapGet_cons]
    by_cases h : p = k
    · simp [h]
    · rw [if_neg (fun h2 : k = p => h h2.symm), if_neg h]
  | cons e m ih =>
    obtain ⟨a, b⟩ := e
    by_cases hak : a = k
    · subst hak
      rw [mapSet, if_pos rfl, mapGet_cons, mapGet_cons]
      by_cases hp : p = a
      · simp [hp]
      · have hap : ¬a = p := fun h2 => hp h2.symm
        rw [if_neg hap, if_neg hp, if_neg hap]
    · rw [mapSet, if_neg hak, mapGet_cons, ih, mapGet_cons]
      by_cases hpa : a = p
      · subst hpa
        simp [hak]
      · simp [hpa]

theorem keys_mapSet (m : List (Nat × Node)) (k : Nat) (v : Node) :
    (mapSet m k v).map Prod.fst =
      if k ∈ m.map Prod.fst then m.map Prod.fst else m.map Prod.fst ++ [k] := by
  induction m with
  | nil => simp [mapSet]
  | cons e m ih =>
    obtain ⟨a, b⟩ := e
    rw [List.map_cons]
    by_cases hak : a = k
    · rw [mapSet, if_pos hak, List.map_cons]
      simp [hak]
    · rw [mapSet, if_neg hak, List.map_cons, ih]
      by_cases hm : k ∈ m.map Prod.fst
      · simp [hm]
      · have hka : ¬k = a := fun h2 => hak h2.symm
        simp [hm, hka]

theorem nodup_mapSet (m : List (Nat × Node)) (k : Nat) (v : Node)
    (h : (m.map Prod.fst).Nodup) : ((mapSet m k v).map Prod.fst).Nodup := by
  rw [keys_mapSet]
  by_cases hm : k ∈ m.map Prod.fst
  · simpa [hm] using h
  · simp [hm, List.nodup_append, h]

theorem mapGet_mapDel (m : List (Nat × Node)) (k p : Nat) :
    mapGet (mapDel m k) p = if p = k then none else mapGet m p := by
  induction m with
  | nil => by_cases h : p = k <;> simp [mapDel, mapGet, h]
  | cons e m ih =>
    obtain ⟨a, b⟩ := e
    rw [mapDel, List.filter_cons]
    by_cases hak : a = k
    · rw [if_neg (by simp [hak])]
      rw [show List.filter (fun e => decide (e.1 ≠ k)) m = mapDel m k from rfl, ih]
      by_cases hp : p = k
      · simp [hp]
      · rw [if_neg hp, if_neg hp, mapGet_cons,
          if_neg (fun h2 : a = p => hp (h2.symm.trans hak))]

    · rw [if_pos (by simp [hak]),
        show List.filter (fun e => decide (e.1 ≠ k)) m = mapDel m k from rfl,
        mapGet_cons, ih, mapGet_cons]
      by_cases hap : a = p
      · subst hap
        simp [fun h2 : a = k => hak h2]
      · simp [hap]

theorem nodup_mapDel (m : List (Nat × Node)) (k : Nat)
    (h : (m.map Prod.fst).Nodup) : ((mapDel m k).map Prod.fst).Nodup :=
  ((List.filter_sublist m).map Prod.fst).nodup h

theorem mem_setInsert [DecidableEq Node] (s : List Node) (n a : Node) :
    a ∈ setInsert s n ↔ a ∈ s ∨ a = n := by
  by_cases h : n ∈ s
  · simp only [setInsert, if_pos h]
    constructor
    · exact Or.inl
    · rintro (ha | rfl)
      · exact ha
      · exact h
  · simp [setInsert, if_neg h]

theorem mem_setErase [DecidableEq Node] (s : List Node) (n a : Node) :
    a ∈ setErase s n ↔ a ∈ s ∧ a ≠ n := by
  simp [setErase]

/-! ## Lemmas about the placement loop (`addNodeWithoutSort`) -/

theorem addInner_frame [DecidableEq Node] (node : Node) (i : Nat) (ps : List Nat)
    (j reps : Nat) (m : List (Nat × Node)) (p : Nat) (v : Node)
    (h : mapGet m p = some v) :
    mapGet (addInner node i ps j reps m).2 p = some v := by
  induction ps generalizing j reps m with
  | nil => simpa [addInner] using h
  | cons pos rest ih =>
    by_cases h1 : reps < i + j
    · simpa [addInner, if_pos h1] using h
    · by_cases h2 : (mapGet m pos).isSome
      · simp only [addInner, if_neg h1, if_pos h2]
        exact ih _ _ _ h
      · simp only [addInner, if_neg h1, if_neg h2]
        apply ih
        rw [mapGet_mapSet]
        have hne : ¬p = pos := by
          intro h3
          rw [← h3, h] at h2
          simp at h2
        rw [if_neg hne]
        exact h

theorem addInner_owner [DecidableEq Node] (node : Node) (i : Nat) (ps : List Nat)
    (j reps : Nat) (m : List (Nat × Node)) (p : Nat) (v : Node)
    (h : mapGet (addInner node i ps j reps m).2 p = some v) :
    mapGet m p = some v ∨ v = node := by
  induction ps generalizing j reps m with
  | nil => exact Or.inl (by simpa [addInner] using h)
  | cons pos rest ih =>
    by_cases h1 : reps < i + j
    · simp only [addInner, if_pos h1] at h
      exact Or.inl h
    · by_cases h2 : (mapGet m pos).isSome
      · simp only [addInner, if_neg h1, if_pos h2] at h
        exact ih _ _ _ h
      · simp only [addInner, if_neg h1, if_neg h2] at h
        rcases ih _ _ _ h with h3 | h3
        · rw [mapGet_mapSet] at h3
          by_cases hp : p = pos
          · rw [if_pos hp] at h3
            exact Or.inr (Option.some_inj.mp h3).symm
          · rw [if_neg hp] at h3
            exact Or.inl h3
        · exact Or.inr h3

theorem addInner_nodup [DecidableEq Node] (node : Node) (i : Nat) (ps : List Nat)
    (j reps : Nat) (m : List (Nat × Node)) (hn : (m.map Prod.fst).Nodup) :
    (((addInner node i ps j reps m).2).map Prod.fst).Nodup := by
  induction ps generalizing j reps m with
  | nil => simpa [addInner] using hn
  | cons pos rest ih =>
    by_cases h1 : reps < i + j
    · simpa [addInner, if_pos h1] using hn
    · by_cases h2 : (mapGet m pos).isSome
      · simp only [addInner, if_neg h1, if_pos h2]
        exact ih _ _ _ hn
      · simp only [addInner, if_neg h1, if_neg h2]
        exact ih _ _ _ (nodup_mapSet _ _ _ hn)

theorem addOuter_frame [DecidableEq Node] (caps : Caps Node) (node : Node)
    (fuel : Nat) (i reps : Nat) (m m2 : List (Nat × Node)) (p : Nat) (v : Node)
    (h : addOuter caps node fuel i reps m = some m2)
    (hget : mapGet m p = some v) : mapGet m2 p = some v := by
  induction fuel generalizing i reps m with
  | zero => simp [addOuter] at h
  | succ fuel ih =>
    simp only [addOuter] at h
    by_cases h1 : i < reps
    · rw [if_pos h1] at h
      by_cases h2 : (getIterateHashKeyForNode caps node i).isEmpty
      · rw [if_pos h2] at h
        cases h
        exact hget
      · rw [if_neg h2] at h
        exact ih _ _ _ h (addInner_frame _ _ _ _ _ _ _ _ hget)
    · rw [if_neg h1] at h
      cases h
      exact hget

theorem addOuter_owner [DecidableEq Node] (caps : Caps Node) (node : Node)
    (fuel : Nat) (i reps : Nat) (m m2 : List (Nat × Node)) (p : Nat) (v : Node)
    (h : addOuter caps node fuel i reps m = some m2)
    (hget : mapGet m2 p = some v) : mapGet m p = some v ∨ v = node := by
  induction fuel generalizing i reps m with
  | zero => simp [addOuter] at h
  | succ fuel ih =>
    simp only [addOuter] at h
    by_cases h1 : i < reps
    · rw [if_pos h1] at h
      by_cases h2 : (getIterateHashKeyForNode caps node i).isEmpty
      · rw [if_pos h2] at h
        cases h
        exact Or.inl hget
      · rw [if_neg h2] at h
        rcases ih _ _ _ h with h3 | h3
        · exact addInner_owner _ _ _ _ _ _ _ _ h3
        · exact Or.inr h3
    · rw [if_neg h1] at h
      cases h
      exact Or.inl hget

theorem addOuter_nodup [DecidableEq Node] (caps : Caps Node) (node : Node)
    (fuel : Nat) (i reps : Nat) (m m2 : List (Nat × Node))
    (h : addOuter caps node fuel i reps m = some m2)
    (hn : (m.map Prod.fst).Nodup) : (m2.map Prod.fst).Nodup := by
  induction fuel generalizing i reps m with
  | zero => simp [addOuter] at h
  | succ fuel ih =>
    simp only [addOuter] at h
    by_cases h1 : i < reps
    · rw [if_pos h1] at h
      by_cases h2 : (getIterateHashKeyForNode caps node i).isEmpty
      · rw [if_pos h2] at h
        cases h
        exact hn
      · rw [if_neg h2] at h
        exact ih _ _ _ h (addInner_nodup _ _ _ _ _ _ hn)
    · rw [if_neg h1] at h
      cases h
      exact hn

/-! ## Lemmas about the removal loop (`removeNoWeightNodes`) -/

theorem removeInner_sub [DecidableEq Node] (caps : Caps Node) (node : Node) (i : Nat)
    (ps : List Nat) (j reps : Nat) (m : List (Nat × Node)) (p : Nat) (v : Node)
    (h : mapGet (removeInner caps node i ps j reps m).2 p = some v) :
    mapGet m p = some v := by
  induction ps generalizing j reps m with
  | nil => simpa [removeInner] using h
  | cons pos rest ih =>
    by_cases h1 : reps < i + j
    · simpa [removeInner, if_pos h1] using h
    · cases hl : mapGet m pos with
      | some n =>
        by_cases hs : isSameNode caps n node
        · simp only [removeInner, if_neg h1, hl, if_pos hs] at h
          have h2 := ih _ _ _ h
          rw [mapGet_mapDel] at h2
          by_cases hp : p = pos
          · rw [if_pos hp] at h2
            cases h2
          · rwa [if_neg hp] at h2
        · simp only [removeInner, if_neg h1, hl, if_neg hs] at h
          exact ih _ _ _ h
      | none =>
        simp only [removeInner, if_neg h1, hl] at h
        exact ih _ _ _ h

theorem removeInner_keep [DecidableEq Node] (caps : Caps Node) (node : Node) (i : Nat)
    (ps : List Nat) (j reps : Nat) (m : List (Nat × Node)) (p : Nat) (v : Node)
    (hget : mapGet m p = some v) (hv : isSameNode caps v node = false) :
    mapGet (removeInner caps node i ps j reps m).2 p = some v := by
  induction ps generalizing j reps m with
  | nil => simpa [removeInner] using hget
  | cons pos rest ih =>
    by_cases h1 : reps < i + j
    · simpa [removeInner, if_pos h1] using hget
    · cases hl : mapGet m pos with
      | some n =>
        by_cases hs : isSameNode caps n node
        · simp only [removeInner, if_neg h1, hl, if_pos hs]
          apply ih
          rw [mapGet_mapDel]
          have hp : ¬p = pos := by
            intro h2
            rw [h2, hl] at hget
            cases hget
            rw [hs] at hv
            cases hv
          rw [if_neg hp]
          exact hget
        · simp only [removeInner, if_neg h1, hl, if_neg hs]
          exact ih _ _ _ hget
      | none =>
        simp only [removeInner, if_neg h1, hl]
        exact ih _ _ _ hget

theorem removeInner_del_same [DecidableEq Node] (caps : Caps Node) (node : Node) (i : Nat)
    (ps : List Nat) (j reps : Nat) (m : List (Nat × Node)) (p : Nat) (v : Node)
    (hget : mapGet m p = some v)
    (hdel : mapGet (removeInner caps node i ps j reps m).2 p = none) :
    isSameNode caps v node = true := by
  by_cases hv : isSameNode caps v node
  · exact hv
  · have := removeInner_keep caps node i ps j reps m p v hget (by simpa using hv)
    rw [this] at hdel
    cases hdel

theorem removeInner_nodup [DecidableEq Node] (caps : Caps Node) (node : Node) (i : Nat)
    (ps : List Nat) (j reps : Nat) (m : List (Nat × Node))
    (hn : (m.map Prod.fst).Nodup) :
    (((removeInner caps node i ps j reps m).2).map Prod.fst).Nodup := by
  induction ps generalizing j reps m with
  | nil => simpa [removeInner] using hn
  | cons pos rest ih =>
    by_cases h1 : reps < i + j
    · simpa [removeInner, if_pos h1] using hn
    · cases hl : mapGet m pos with
      | some n =>
        by_cases hs : isSameNode caps n node
        · simp only [removeInner, if_neg h1, hl, if_pos hs]
          exact ih _ _ _ (nodup_mapDel _ _ hn)
        · simp only [removeInner, if_neg h1, hl, if_neg hs]
          exact ih _ _ _ hn
      | none =>
        simp only [removeInner, if_neg h1, hl]
        exact ih _ _ _ hn

theorem removeOuter_sub [DecidableEq Node] (caps : Caps Node) (node : Node)
    (fuel : Nat) (i reps : Nat) (m : List (Nat × Node)) (rm : Nat × List (Nat × Node))
    (p : Nat) (v : Node) (h : removeOuter caps node fuel i reps m = some rm)
    (hget : mapGet rm.2 p = some v) : mapGet m p = some v := by
  induction fuel generalizing i reps m with
  | zero => simp [removeOuter] at h
  | succ fuel ih =>
    simp only [removeOuter] at h
    by_cases h1 : i < reps
    · rw [if_pos h1] at h
      by_cases h2 : (getIterateHashKeyForNode caps node i).isEmpty
      · rw [if_pos h2] at h
        exact ih _ _ _ h
      · rw [if_neg h2] at h
        exact removeInner_sub _ _ _ _ _ _ _ _ _ (ih _ _ _ h)
    · rw [if_neg h1] at h
      cases h
      exact hget

theorem removeOuter_keep [DecidableEq Node] (caps : Caps Node) (node : Node)
    (fuel : Nat) (i reps : Nat) (m : List (Nat × Node)) (rm : Nat × List (Nat × Node))
    (p : Nat) (v : Node) (h : removeOuter caps node fuel i reps m = some rm)
    (hget : mapGet m p = some v) (hv : isSameNode caps v node = false) :
    mapGet rm.2 p = some v := by
  induction fuel generalizing i reps m with
  | zero => simp [removeOuter] at h
  | succ fuel ih =>
    simp only [removeOuter] at h
    by_cases h1 : i < reps
    · rw [if_pos h1] at h
      by_cases h2 : (getIterateHashKeyForNode caps node i).isEmpty
      · rw [if_pos h2] at h
        exact ih _ _ _ h hget
      · rw [if_neg h2] at h
        exact ih _ _ _ h (removeInner_keep _ _ _ _ _ _ _ _ _ hget hv)
    · rw [if_neg h1] at h
      cases h
      exact hget

theorem removeOuter_del_same [DecidableEq Node] (caps : Caps Node) (node : Node)
    (fuel : Nat) (i reps : Nat) (m : List (Nat × Node)) (rm : Nat × List (Nat × Node))
    (p : Nat) (v : Node) (h : removeOuter caps node fuel i reps m = some rm)
    (hget : mapGet m p = some v) (hdel : mapGet rm.2 p = none) :
    isSameNode caps v node = true := by
  by_cases hv : isSameNode caps v node
  · exact hv
  · have := removeOuter_keep caps node fuel i reps m rm p v h hget (by simpa using hv)
    rw [this] at hdel
    cases hdel

theorem removeOuter_nodup [DecidableEq Node] (caps : Caps Node) (node : Node)
    (fuel : Nat) (i reps : Nat) (m : List (Nat × Node)) (rm : Nat × List (Nat × Node))
    (h : removeOuter caps node fuel i reps m = some rm)
    (hn : (m.map Prod.fst).Nodup) : (rm.2.map Prod.fst).Nodup := by
  induction fuel generalizing i reps m with
  | zero => simp [removeOuter] at h
  | succ fuel ih =>
    simp only [removeOuter] at h
    by_cases h1 : i < reps
    · rw [if_pos h1] at h
      by_cases h2 : (getIterateHashKeyForNode caps node i).isEmpty
      · rw [if_pos h2] at h
        exact ih _ _ _ h hn
      · rw [if_neg h2] at h
        exact ih _ _ _ h (removeInner_nodup _ _ _ _ _ _ _ hn)
    · rw [if_neg h1] at h
      cases h
      exact hn

/-! ## Operation-level characterization lemmas -/

theorem foldl_bind_none {β σ : Type _} (g : σ → β → Option σ) (ns : List β) :
    ns.foldl (fun acc n => acc.bind (fun s => g s n)) none = none := by
  induction ns with
  | nil => rfl
  | cons n rest ih => simpa using ih

theorem addNodeWithoutSort_spec [DecidableEq Node] (caps : Caps Node)
    (st st' : HashRing Node) (node : Node) (reps fuel : Nat)
    (h : addNodeWithoutSort caps st node reps fuel = some st') :
    st'.allNodes = setInsert st.allNodes node ∧
      st'.sortedKeys = st.sortedKeys ∧
      st'.weightByNode = st.weightByNode ∧
      st'.isWeighted = st.isWeighted ∧
      st'.numReps = st.numReps ∧
      (∀ p v, mapGet st.nodeByKey p = some v → mapGet st'.nodeByKey p = some v) ∧
      (∀ p v, mapGet st'.nodeByKey p = some v → mapGet st.nodeByKey p = some v ∨ v = node) ∧
      ((st.nodeByKey.map Prod.fst).Nodup → (st'.nodeByKey.map Prod.fst).Nodup) := by
  rw [addNodeWithoutSort, Option.map_eq_some'] at h
  obtain ⟨m2, hm2, hst⟩ := h
  subst hst
  refine ⟨rfl, rfl, rfl, rfl, rfl, ?_, ?_, ?_⟩
  · exact fun p v hv => addOuter_frame _ _ _ _ _ _ _ _ _ hm2 hv
  · exact fun p v hv => addOuter_owner _ _ _ _ _ _ _ _ _ hm2 hv
  · exact fun hn => addOuter_nodup _ _ _ _ _ _ _ hm2 hn

theorem foldAdd_spec [DecidableEq Node] (caps : Caps Node) (bgt : Node → Nat)
    (fuel : Nat) (ns : List Node) (st s1 : HashRing Node)
    (h : ns.foldl (fun acc n => acc.bind
      (fun s => addNodeWithoutSort caps s n (bgt n) fuel)) (some st) = some s1) :
    s1.allNodes = ns.foldl setInsert st.allNodes ∧
      s1.sortedKeys = st.sortedKeys ∧
      s1.weightByNode = st.weightByNode ∧
      s1.isWeighted = st.isWeighted ∧
      s1.numReps = st.numReps ∧
      (∀ p v, mapGet st.nodeByKey p = some v → mapGet s1.nodeByKey p = some v) ∧
      (∀ p v, mapGet s1.nodeByKey p = some v → mapGet st.nodeByKey p = some v ∨ v ∈ ns) ∧
      ((st.nodeByKey.map Prod.fst).Nodup → (s1.nodeByKey.map Prod.fst).Nodup) := by
  induction ns generalizing st with
  | nil =>
    simp only [List.foldl_nil, Option.some_inj] at h
    subst h
    exact ⟨rfl, rfl, rfl, rfl, rfl, fun _ _ hv => hv, fun p v hv => Or.inl hv, id⟩
  | cons n rest ih =>
    rw [List.foldl_cons, Option.some_bind] at h
    cases hadd : addNodeWithoutSort caps st n (bgt n) fuel with
    | none =>
      rw [hadd, foldl_bind_none] at h
      cases h
    | some st1 =>
      rw [hadd] at h
      obtain ⟨ha, hsk, hw, hiw, hnr, hfr, how, hnd⟩ := ih st1 h
      obtain ⟨ha1, hsk1, hw1, hiw1, hnr1, hfr1, how1, hnd1⟩ :=
        addNodeWithoutSort_spec _ _ _ _ _ _ hadd
      refine ⟨?_, by rw [hsk, hsk1], by rw [hw, hw1], by rw [hiw, hiw1],
        by rw [hnr, hnr1], ?_, ?_, ?_⟩
      · rw [List.foldl_cons, ha, ha1]
      · exact fun p v hv => hfr p v (hfr1 p v hv)
      · intro p v hv
        rcases how p v hv with h2 | h2
        · rcases how1 p v h2 with h3 | h3
          · exact Or.inl h3
          · exact Or.inr (by simp [h3])
        · exact Or.inr (List.mem_cons_of_mem _ h2)
      · exact fun hn => hnd (hnd1 hn)

theorem foldRemove_spec [DecidableEq Node] (caps : Caps Node) (fuel : Nat)
    (ns : List Node) (t0 t1 : Nat × List (Nat × Node) × List Node)
    (h : ns.foldl (fun acc node => acc.bind (fun rms =>
      (removeOuter caps node fuel 0 rms.1 rms.2.1).map
        (fun rm => (rm.1, rm.2, setErase rms.2.2 node)))) (some t0) = some t1) :
    t1.2.2 = ns.foldl setErase t0.2.2 ∧
      (∀ p v, mapGet t1.2.1 p = some v → mapGet t0.2.1 p = some v) ∧
      (∀ p v, mapGet t0.2.1 p = some v →
        (∀ r ∈ ns, isSameNode caps v r = false) → mapGet t1.2.1 p = some v) ∧
      (∀ p v, mapGet t0.2.1 p = some v → mapGet t1.2.1 p = none →
        ∃ r ∈ ns, isSameNode caps v r = true) ∧
      ((t0.2.1.map Prod.fst).Nodup → (t1.2.1.map Prod.fst).Nodup) := by
  induction ns generalizing t0 with
  | nil =>
    simp only [List.foldl_nil, Option.some_inj] at h
    subst h
    refine ⟨rfl, fun _ _ hv => hv, fun _ _ hv _ => hv, ?_, id⟩
    intro p v hv hn
    rw [hv] at hn
    cases hn
  | cons node rest ih =>
    rw [List.foldl_cons, Option.some_bind] at h
    cases hro : removeOuter caps node fuel 0 t0.1 t0.2.1 with
    | none =>
      rw [hro] at h
      simp only [Option.map_none'] at h
      rw [foldl_bind_none] at h
      cases h
    | some rm0 =>
      rw [hro] at h
      simp only [Option.map_some'] at h
      obtain ⟨he, hsub, hkeep, hdel, hnd⟩ := ih _ h
      refine ⟨?_, ?_, ?_, ?_, ?_⟩
      · rw [List.foldl_cons]
        exact he
      · exact fun p v hv => removeOuter_sub _ _ _ _ _ _ _ _ _ hro (hsub p v hv)
      · intro p v hv hall
        exact hkeep p v
          (removeOuter_keep _ _ _ _ _ _ _ _ _ hro hv (hall node (List.mem_cons_self _ _)))
          (fun r hr => hall r (List.mem_cons_of_mem _ hr))
      · intro p v hv hnone
        cases hmid : mapGet rm0.2 p with
        | none =>
          exact ⟨node, List.mem_cons_self _ _,
            removeOuter_del_same _ _ _ _ _ _ _ _ _ hro hv hmid⟩
        | some w =>
          have hw : mapGet t0.2.1 p = some w :=
            removeOuter_sub _ _ _ _ _ _ _ _ _ hro hmid
          rw [hv] at hw
          cases hw
          obtain ⟨r, hr, hrs⟩ := hdel p v hmid hnone
          exact ⟨r, List.mem_cons_of_mem _ hr, hrs⟩
      · exact fun hn => hnd (removeOuter_nodup _ _ _ _ _ _ _ hro hn)

theorem updateSortedNodes_spec (st : HashRing Node) :
    (updateSortedNodes st).nodeByKey = st.nodeByKey ∧
      (updateSortedNodes st).allNodes = st.allNodes ∧
      (updateSortedNodes st).weightByNode = st.weightByNode ∧
      (updateSortedNodes st).isWeighted = st.isWeighted ∧
      (updateSortedNodes st).numReps = st.numReps ∧
      SortSync (updateSortedNodes st) :=
  ⟨rfl, rfl, rfl, rfl, rfl, rfl⟩

theorem addNoWeightNodes_spec [DecidableEq Node] (caps : Caps Node)
    (st st' : HashRing Node) (ns : List Node) (fuel : Nat)
    (h : addNoWeightNodes caps st ns fuel = some st') :
    st'.allNodes = ns.foldl setInsert st.allNodes ∧
      st'.weightByNode = st.weightByNode ∧
      st'.isWeighted = st.isWeighted ∧
      st'.numReps = st.numReps ∧
      SortSync st' ∧
      (KeysNodup st → KeysNodup st') ∧
      (∀ p v, mapGet st.nodeByKey p = some v → mapGet st'.nodeByKey p = some v) ∧
      (∀ p v, mapGet st'.nodeByKey p = some v →
        mapGet st.nodeByKey p = some v ∨ v ∈ ns) := by
  rw [addNoWeightNodes, Option.map_eq_some'] at h
  obtain ⟨s1, hs1, hst⟩ := h
  subst hst
  obtain ⟨ha, _, hw, hiw, hnr, hfr, how, hnd⟩ := foldAdd_spec caps _ fuel ns st s1 hs1
  exact ⟨ha, hw, hiw, hnr, rfl, hnd, hfr, how⟩

theorem setWeightNodes_spec [DecidableEq Node] (caps : Caps Node)
    (st st' : HashRing Node) (ns : List Node) (fuel : Nat)
    (h : setWeightNodes caps st ns fuel = some st') :
    st'.allNodes = ns.foldl setInsert [] ∧
      st'.weightByNode = st.weightByNode ∧
      st'.isWeighted = st.isWeighted ∧
      st'.numReps = st.numReps ∧
      SortSync st' ∧
      KeysNodup st' ∧
      (∀ p v, mapGet st'.nodeByKey p = some v → v ∈ ns) := by
  rw [setWeightNodes, Option.map_eq_some'] at h
  obtain ⟨s1, hs1, hst⟩ := h
  subst hst
  obtain ⟨ha, _, hw, hiw, hnr, _, how, hnd⟩ := foldAdd_spec caps _ fuel ns _ s1 hs1
  refine ⟨ha, hw, hiw, hnr, rfl, hnd (by simp [KeysNodup, RemoveAllNodes]), ?_⟩
  intro p v hv
  rcases how p v hv with h2 | h2
  · simp [RemoveAllNodes, mapGet] at h2
  · exact h2

theorem removeNoWeightNodes_spec [DecidableEq Node] (caps : Caps Node)
    (st st' : HashRing Node) (ns : List Node) (fuel : Nat)
    (h : removeNoWeightNodes caps st ns fuel = some st') :
    st'.allNodes = ns.foldl setErase st.allNodes ∧
      st'.weightByNode = st.weightByNode ∧
      st'.isWeighted = st.isWeighted ∧
      st'.numReps = st.numReps ∧
      SortSync st' ∧
      (KeysNodup st → KeysNodup st') ∧
      (∀ p v, mapGet st'.nodeByKey p = some v → mapGet st.nodeByKey p = some v) ∧
      (∀ p v, mapGet st.nodeByKey p = some v →
        (∀ r ∈ ns, isSameNode caps v r = false) → mapGet st'.nodeByKey p = some v) ∧
      (∀ p v, mapGet st.nodeByKey p = some v → mapGet st'.nodeByKey p = none →
        ∃ r ∈ ns, isSameNode caps v r = true) := by
  rw [removeNoWeightNodes, Option.map_eq_some'] at h
  obtain ⟨t1, ht1, hst⟩ := h
  subst hst
  obtain ⟨he, hsub, hkeep, hdel, hnd⟩ :=
    foldRemove_spec caps fuel ns (st.numReps, st.nodeByKey, st.allNodes) t1 ht1
  exact ⟨he, rfl, rfl, rfl, rfl, hnd, hsub, hkeep, hdel⟩

theorem setNoWeightNodes_decomp [DecidableEq Node] (caps : Caps Node)
    (st st' : HashRing Node) (ns : List Node) (fuel : Nat)
    (h : setNoWeightNodes caps st ns fuel = some st') :
    ∃ s1, (if (toRemoveList caps st ns).length = ns.length
        then some (RemoveAllNodes st)
        else removeNoWeightNodes caps st (toRemoveList caps st ns) fuel) = some s1 ∧
      addNoWeightNodes caps s1 (toAddList caps s1.allNodes ns) fuel = some st' := by
  rw [setNoWeightNodes, Option.bind_eq_some] at h
  exact h

theorem setNoWeightNodes_spec [DecidableEq Node] (caps : Caps Node)
    (st st' : HashRing Node) (ns : List Node) (fuel : Nat)
    (h : setNoWeightNodes caps st ns fuel = some st') (hn : KeysNodup st) :
    KeysNodup st' ∧ SortSync st' ∧
      st'.weightByNode = st.weightByNode ∧
      st'.isWeighted = st.isWeighted ∧
      st'.numReps = st.numReps := by
  obtain ⟨s1, hs1, hadd⟩ := setNoWeightNodes_decomp caps st st' ns fuel h
  obtain ⟨_, hw, hiw, hnr, hss, hnd, _, _⟩ := addNoWeightNodes_spec caps s1 st' _ fuel hadd
  by_cases hc : (toRemoveList caps st ns).length = ns.length
  · rw [if_pos hc, Option.some_inj] at hs1
    subst hs1
    refine ⟨hnd (by simp [KeysNodup, RemoveAllNodes]), hss, ?_, ?_, ?_⟩
    · rw [hw]; rfl
    · rw [hiw]; rfl
    · rw [hnr]; rfl
  · rw [if_neg hc] at hs1
    obtain ⟨_, hw1, hiw1, hnr1, _, hnd1, _, _, _⟩ :=
      removeNoWeightNodes_spec caps st s1 _ fuel hs1
    exact ⟨hnd (hnd1 hn), hss, by rw [hw, hw1], by rw [hiw, hiw1], by rw [hnr, hnr1]⟩

/-- Every reachable ring state has a duplicate-free position table whose
sorted index is exactly the ascending sort of its keys. -/
theorem reachable_invariant [DecidableEq Node] (caps : Caps Node)
    (st : HashRing Node) (h : Reachable caps st) : KeysNodup st ∧ SortSync st := by
  induction h with
  | init w r b => exact ⟨by simp [KeysNodup, New], rfl⟩
  | add st st' ns fuel _ hop ih =>
    rw [AddNodes] at hop
    by_cases hwt : st.isWeighted
    · rw [if_pos hwt, addWeightNodes] at hop
      obtain ⟨_, _, _, _, hss, hnd, _⟩ := setWeightNodes_spec caps st st' _ fuel hop
      exact ⟨hnd, hss⟩
    · rw [if_neg hwt] at hop
      obtain ⟨_, _, _, _, hss, hnd, _, _⟩ := addNoWeightNodes_spec caps st st' ns fuel hop
      exact ⟨hnd ih.1, hss⟩
  | set st st' ns fuel _ hop ih =>
    rw [SetNodes] at hop
    by_cases hwt : st.isWeighted
    · rw [if_pos hwt] at hop
      obtain ⟨_, _, _, _, hss, hnd, _⟩ := setWeightNodes_spec caps st st' ns fuel hop
      exact ⟨hnd, hss⟩
    · rw [if_neg hwt] at hop
      obtain ⟨hnd, hss, _, _, _⟩ := setNoWeightNodes_spec caps st st' ns fuel hop ih.1
      exact ⟨hnd, hss⟩
  | remove st st' ns fuel _ hop ih =>
    rw [RemoveNodes] at hop
    by_cases hwt : st.isWeighted
    · rw [if_pos hwt, removeWeightNodes] at hop
      obtain ⟨_, _, _, _, hss, hnd, _⟩ := setWeightNodes_spec caps _ st' _ fuel hop
      exact ⟨hnd, hss⟩
    · rw [if_neg hwt] at hop
      obtain ⟨_, _, _, _, hss, hnd, _, _, _⟩ :=
        removeNoWeightNodes_spec caps st st' ns fuel hop
      exact ⟨hnd ih.1, hss⟩
  | removeAll st _ _ => exact ⟨by simp [KeysNodup, RemoveAllNodes], rfl⟩

/-! ## Sorted-index and tail-search lemmas -/

theorem findIdx?_some_spec (p : α → Bool) (l : List α) (s i : Nat)
    (h : l.findIdx? p s = some i) :
    ∃ l₁ x l₂, l = l₁ ++ x :: l₂ ∧ s + l₁.length = i ∧ p x = true ∧
      ∀ y ∈ l₁, p y = false := by
  induction l generalizing s with
  | nil => simp [List.findIdx?] at h
  | cons a l ih =>
    rw [List.findIdx?] at h
    by_cases hp : p a
    · rw [if_pos hp, Option.some_inj] at h
      exact ⟨[], a, l, rfl, by simpa using h, hp, by simp⟩
    · rw [if_neg hp] at h
      obtain ⟨l₁, x, l₂, hl, hlen, hx, hall⟩ := ih _ h
      refine ⟨a :: l₁, x, l₂, by rw [hl, List.cons_append], ?_, hx, ?_⟩
      · simpa [Nat.add_comm, Nat.add_assoc, Nat.add_left_comm] using hlen
      · intro y hy
        rcases List.mem_cons.mp hy with rfl | hy
        · simpa using hp
        · exact hall y hy

theorem findIdx?_none_spec (p : α → Bool) (l : List α) (s : Nat)
    (h : l.findIdx? p s = none) : ∀ x ∈ l, p x = false := by
  induction l generalizing s with
  | nil => simp
  | cons a l ih =>
    rw [List.findIdx?] at h
    by_cases hp : p a
    · rw [if_pos hp] at h
      cases h
    · rw [if_neg hp] at h
      intro x hx
      rcases List.mem_cons.mp hx with rfl | hx
      · simpa using hp
      · exact ih _ h x hx

theorem findIdx?_eq_none_of_all (p : α → Bool) (l : List α) (s : Nat)
    (h : ∀ x ∈ l, p x = false) : l.findIdx? p s = none := by
  induction l generalizing s with
  | nil => rfl
  | cons a l ih =>
    rw [List.findIdx?, if_neg (by simp [h a (List.mem_cons_self a l)])]
    exact ih _ (fun x hx => h x (List.mem_cons_of_mem _ hx))

theorem getD_append_length (l₁ : List Nat) (x : Nat) (l₂ : List Nat) (d : Nat) :
    (l₁ ++ x :: l₂).getD l₁.length d = x := by
  induction l₁ with
  | nil => rfl
  | cons a l₁ ih => simpa using ih

/-- Well-formedness facts about the sorted index derivable from the two
reachability invariants. -/
theorem sorted_pack (st : HashRing Node) (hnd : KeysNodup st) (hss : SortSync st) :
    st.sortedKeys.Sorted (· < ·) ∧
      (∀ p, p ∈ st.sortedKeys ↔ p ∈ st.nodeByKey.map Prod.fst) ∧
      (st.nodeByKey ≠ [] → st.sortedKeys ≠ []) := by
  rw [SortSync] at hss
  refine ⟨?_, ?_, ?_⟩
  · rw [hss]
    exact (List.sorted_insertionSort _ _).lt_of_le
      (((List.perm_insertionSort _ _).nodup_iff).mpr hnd)
  · intro p
    rw [hss]
    exact List.mem_insertionSort _
  · intro hne hkeys
    rw [hss] at hkeys
    have := List.length_insertionSort (· ≤ ·) (st.nodeByKey.map Prod.fst)
    rw [hkeys] at this
    simp only [List.length_nil] at this
    have h2 := List.map_eq_nil_iff.mp (List.length_eq_zero.mp this.symm)
    exact hne h2

/-- Case analysis of `getNodeByHashKey` on a non-empty well-formed ring:
an exact hit returns the stored owner; otherwise the owner of the smallest
stored position `≥ hash` is returned, or the owner of the overall smallest
stored position when every stored position is `< hash`. -/
theorem getNodeByHashKey_cases [Inhabited Node] (st : HashRing Node) (h : Nat)
    (hnd : KeysNodup st) (hss : SortSync st) (hne : st.nodeByKey ≠ []) :
    (∃ n, mapGet st.nodeByKey h = some n ∧ getNodeByHashKey st h = some n) ∨
      (mapGet st.nodeByKey h = none ∧
        ∃ q n, getNodeByHashKey st h = some n ∧ mapGet st.nodeByKey q = some n ∧
          q ∈ st.sortedKeys ∧
          ((h ≤ q ∧ ∀ r ∈ st.sortedKeys, h ≤ r → q ≤ r) ∨
            ((∀ r ∈ st.sortedKeys, r < h) ∧ ∀ r ∈ st.sortedKeys, q ≤ r))) := by
  obtain ⟨hsort, hmem, hnekeys⟩ := sorted_pack st hnd hss
  have hkeysne : st.sortedKeys ≠ [] := hnekeys hne
  have hemp : st.sortedKeys.isEmpty = false := by
    cases hk : st.sortedKeys
    · exact absurd hk hkeysne
    · rfl
  cases hget : mapGet st.nodeByKey h with
  | some n =>
    left
    refine ⟨n, rfl, ?_⟩
    rw [getNodeByHashKey, hemp]
    simp only [Bool.false_eq_true, if_false, hget]
  | none =>
    right
    refine ⟨rfl, ?_⟩
    have hbody : getNodeByHashKey st h =
        some (getNodeByHashKeyIndex st
          (if (tailSearch st.sortedKeys h).2 then (tailSearch st.sortedKeys h).1 else 0)) := by
      rw [getNodeByHashKey, hemp]
      simp only [Bool.false_eq_true, if_false, hget]
    cases hf : st.sortedKeys.findIdx? (fun v => decide (h ≤ v)) 0 with
    | some j =>
      have hts : tailSearch st.sortedKeys h = (j, true) := by
        rw [tailSearch]
        have : st.sortedKeys.findIdx? (fun v => decide (h ≤ v)) =
            st.sortedKeys.findIdx? (fun v => decide (h ≤ v)) 0 := rfl
        rw [this, hf]
      obtain ⟨l₁, x, l₂, hl, hlen, hx, hall⟩ := findIdx?_some_spec _ _ _ _ hf
      simp only [Nat.zero_add] at hlen
      have hxmem : x ∈ st.sortedKeys := by
        rw [hl]
        exact List.mem_append_right _ (List.mem_cons_self _ _)
      have hxstored : x ∈ st.nodeByKey.map Prod.fst := (hmem x).mp hxmem
      have hxs : (mapGet st.nodeByKey x).isSome := (mapGet_isSome_iff _ _).mpr hxstored
      obtain ⟨n, hn⟩ := Option.isSome_iff_exists.mp hxs
      have hidx : getNodeByHashKeyIndex st j = n := by
        rw [getNodeByHashKeyIndex, ← hlen, hl, getD_append_length, hn]
        rfl
      refine ⟨x, n, ?_, hn, hxmem, Or.inl ⟨by simpa using hx, ?_⟩⟩
      · rw [hbody, hts]
        simpa using congrArg some hidx
      · intro r hr hhr
        rw [hl] at hr hsort
        rcases List.mem_append.mp hr with hr1 | hr2
        · have := hall r hr1
          simp only [decide_eq_false_iff_not, not_le] at this
          omega
        · rcases List.mem_cons.mp hr2 with rfl | hr3
          · exact le_refl _
          · have hsort2 : List.Pairwise (· < ·) (l₁ ++ x :: l₂) := hsort
            have hpc := (List.pairwise_append.mp hsort2).2.1
            exact le_of_lt (List.rel_of_sorted_cons hpc r hr3)
    | none =>
      have hts : tailSearch st.sortedKeys h = (st.sortedKeys.length, false) := by
        rw [tailSearch]
        have : st.sortedKeys.findIdx? (fun v => decide (h ≤ v)) =
            st.sortedKeys.findIdx? (fun v => decide (h ≤ v)) 0 := rfl
        rw [this, hf]
      have hallsmall : ∀ r ∈ st.sortedKeys, r < h := by
        intro r hr
        have := findIdx?_none_spec _ _ _ hf r hr
        simpa [Nat.lt_iff_le_and_ne, Nat.not_le] using this
      have hex : ∃ x rest, st.sortedKeys = x :: rest := by
        cases hh : st.sortedKeys with
        | nil => exact absurd hh hkeysne
        | cons a b => exact ⟨a, b, rfl⟩
      obtain ⟨x, rest, hk⟩ := hex
      have hxmem : x ∈ st.sortedKeys := by
        rw [hk]
        exact List.mem_cons_self _ _
      have hxstored : x ∈ st.nodeByKey.map Prod.fst := (hmem x).mp hxmem
      have hxs : (mapGet st.nodeByKey x).isSome := (mapGet_isSome_iff _ _).mpr hxstored
      obtain ⟨n, hn⟩ := Option.isSome_iff_exists.mp hxs
      have hidx : getNodeByHashKeyIndex st 0 = n := by
        rw [getNodeByHashKeyIndex, hk]
        simp only [List.getD_cons_zero]
        rw [hn]
        rfl
      refine ⟨x, n, ?_, hn, hxmem, Or.inr ⟨hallsmall, ?_⟩⟩
      · rw [hbody, hts]
        simpa using congrArg some hidx
      · intro r hr
        rw [hk] at hr hsort
        rcases List.mem_cons.mp hr with rfl | hr2
        · exact le_refl _
        · exact le_of_lt (List.rel_of_sorted_cons hsort r hr2)

theorem isEmpty_false_of_ne_nil {α : Type _} {l : List α} (h : l ≠ []) :
    l.isEmpty = false := by
  cases l with
  | nil => exact absurd rfl h
  | cons a l => rfl

theorem Get_eq_getNodeByHashKey [Inhabited Node] (caps : Caps Node)
    (st : HashRing Node) (name : String) (hne : st.nodeByKey ≠ []) :
    Get caps st name = getNodeByHashKey st (caps.keyHash name) := by
  rw [Get, isEmpty_false_of_ne_nil hne]
  simp [getPrimaryNode]

/-- The chain `New → AddNodes(0) → AddNodes(1) → RemoveNodes(0) →
RemoveNodes(1)` under `cexCaps`, reaching the orphaned-position state. -/
theorem cexSt4_reachable : Reachable cexCaps cexSt4 := by
  have h0 : Reachable cexCaps (New [] 1 false) := Reachable.init [] 1 false
  have h1 : Reachable cexCaps cexSt1 := Reachable.add _ _ [0] 20 h0 (by decide)
  have h2 : Reachable cexCaps cexSt2 := Reachable.add _ _ [1] 20 h1 (by decide)
  have h3 : Reachable cexCaps cexSt3 := Reachable.remove _ _ [0] 20 h2 (by decide)
  exact Reachable.remove _ _ [1] 20 h3 (by decide)

/-- The prefix of the same chain reaching `cexSt2` (both via `AddNodes`
and, equally, via a single `SetNodes(0, 1)` from the fresh ring). -/
theorem cexSt2_reachable : Reachable cexCaps cexSt2 := by
  have h0 : Reachable cexCaps (New [] 1 false) := Reachable.init [] 1 false
  exact Reachable.set _ _ [0, 1] 20 h0 (by decide)

/-- The prefix of the chain reaching `cexSt3`. -/
theorem cexSt3_reachable : Reachable cexCaps cexSt3 := by
  have h0 : Reachable cexCaps (New [] 1 false) := Reachable.init [] 1 false
  have h1 : Reachable cexCaps cexSt1 := Reachable.add _ _ [0] 20 h0 (by decide)
  have h2 : Reachable cexCaps cexSt2 := Reachable.add _ _ [1] 20 h1 (by decide)
  exact Reachable.remove _ _ [0] 20 h2 (by decide)

/-- C1, counterexample.  A ring reachable by public membership operations
(`AddNodes(0); AddNodes(1); RemoveNodes(0); RemoveNodes(1)` under
capabilities with one cross-node hash collision) has an empty member set,
yet `Get` reports found and returns the departed node 1, which is not a
member: removal never revisits a collision-shifted position once the
colliding position has disappeared, so position 30 is orphaned.  This
refutes both halves of the claim (empty ring ⇒ not found, and the found
node is a current member). -/
theorem C1_cex :
    Reachable cexCaps cexSt4 ∧ cexSt4.allNodes = [] ∧
      Get cexCaps cexSt4 "anything" = some 1 :=
  ⟨cexSt4_reachable, by decide, by decide⟩

/-- C3, counterexample.  On the reachable ring `cexSt2` (members `{0, 1}`),
`SetNodes(1)` computes `toRemove = [0]`, which does not cover the current
membership (member 1 matches the new set), yet because
`len(toRemove) = len(newSet) = 1` the code takes the full-clear path: the
surviving member 1 is rebuilt from scratch and ends up owning position 10
instead of its previous position 30 — observably different from removing
exactly `[0]`, which would have left `(30, 1)` untouched. -/
theorem C3_cex :
    Reachable cexCaps cexSt2 ∧
      toRemoveList cexCaps cexSt2 [1] = [0] ∧
      (0 : Nat) ∈ cexSt2.allNodes ∧ (1 : Nat) ∈ cexSt2.allNodes ∧
      (1 : Nat) ∉ toRemoveList cexCaps cexSt2 [1] ∧
      (toRemoveList cexCaps cexSt2 [1]).length = [1].length ∧
      SetNodes cexCaps cexSt2 [1] 20 = some cexStT ∧
      mapGet cexStT.nodeByKey 30 = none ∧ mapGet cexStT.nodeByKey 10 = some 1 :=
  ⟨cexSt2_reachable, by decide, by decide, by decide, by decide, by decide,
    by decide, by decide, by decide⟩

/-- C4, counterexample.  On the reachable ring `cexSt2`, node 1 is a member
before and after `SetNodes(1)`, but it does not keep its previous virtual
position 30: the full-clear path of `setNoWeightNodes` rebuilt it from
scratch and its replica-0 position 10 (previously lost to a collision with
the removed node 0) replaced it. -/
theorem C4_cex :
    Reachable cexCaps cexSt2 ∧
      (1 : Nat) ∈ cexSt2.allNodes ∧ mapGet cexSt2.nodeByKey 30 = some 1 ∧
      SetNodes cexCaps cexSt2 [1] 20 = some cexStT ∧
      (1 : Nat) ∈ cexStT.allNodes ∧ mapGet cexStT.nodeByKey 30 = none :=
  ⟨cexSt2_reachable, by decide, by decide, by decide, by decide, by decide⟩

/-- C10, counterexample.  On the reachable ring `cexSt3` (member `{1}`
plus, after removing node 1, an orphaned position from the earlier
collision), `SetNodes([])` once removes member 1 but leaves the orphaned
position 30 behind (`cexSt4`), while a second `SetNodes([])` — now with
`len(toRemove) = 0 = len(newSet)` — takes the full-clear path and erases
it: calling `SetNodes` twice is observably different from calling it
once.  The empty node list is trivially pairwise formatter-distinct. -/
theorem C10_cex :
    Reachable cexCaps cexSt3 ∧
      SetNodes cexCaps cexSt3 [] 20 = some cexSt4 ∧
      SetNodes cexCaps cexSt4 [] 20 = some cexSt5 ∧
      cexSt5 ≠ cexSt4 :=
  ⟨cexSt3_reachable, by decide, by decide, by decide⟩

/-- C9, counterexample.  `AddNodes` performs no formatter-duplicate check:
adding node 1, whose replica-0 label equals that of the existing member 0,
terminates (its colliding replica-0 position is skipped against the
budget-growth rule and its replica-1 position is fresh) and yields a
reachable ring whose member set contains two distinct nodes with equal
replica-0 labels — the claimed invariant and the claimed rejection by
`AddNodes` both fail. -/
theorem C9_cex :
    Reachable c9Caps c9St2 ∧
      AddNodes c9Caps c9St1 [1] 20 = some c9St2 ∧
      (0 : Nat) ∈ c9St2.allNodes ∧ (1 : Nat) ∈ c9St2.allNodes ∧
      isSameNode c9Caps 0 1 = true ∧ (0 : Nat) ≠ 1 := by
  refine ⟨?_, by decide, by decide, by decide, by decide, by decide⟩
  have h0 : Reachable c9Caps (New [] 1 false) := Reachable.init [] 1 false
  have h1 : Reachable c9Caps c9St1 := Reachable.add _ _ [0] 20 h0 (by decide)
  exact Reachable.add _ _ [1] 20 h1 (by decide)

/-- C5, evaluation at the failing input.  With a replica budget of 2,
node 7 derives no position at replica 0 and position 10 at replica 1.
The claim (and the matching `continue` in `removeNoWeightNodes`'s
otherwise-identical loop) says the empty replica index is skipped and
placement continues, which would place position 10; the code instead
executes `numReps++; i++` (both dead) and `break`s out of the placement
loop, leaving the node a member with no virtual positions. -/
theorem C5_empty_derive_break_eval :
    getIterateHashKeyForNode c5Caps 7 0 = [] ∧
      getIterateHashKeyForNode c5Caps 7 1 = [10] ∧
      AddNodes c5Caps (New [] 2 false) [7] 20 = some c5St ∧
      c5St.nodeByKey = [] ∧ c5St.allNodes = [7] :=
  ⟨by decide, by decide, by decide, by decide, by decide⟩

/-- C8, counterexample.  The reachable ring `c5St` has one distinct member
(node 7, which owns no virtual position because its replica-0 derivation
was empty), yet the fully consumed `GetSince` sequence is empty: the
traversal yields the distinct owners of the position table, not the
distinct members. -/
theorem C8_cex :
    Reachable c5Caps c5St ∧ c5St.allNodes = [7] ∧
      GetSince c5Caps c5St "k" = [] := by
  refine ⟨?_, by decide, by decide⟩
  exact Reachable.add _ _ [7] 20 (Reachable.init [] 2 false) (by decide)

/-- C6, counterexample.  `RemoveAllNodes` on a weighted ring (constructed
with weight table `{3 ↦ 2}`) leaves `weightByNode` untouched and
non-empty: the claim that all four state structures are reset to empty
fails on the fourth. -/
theorem C6_cex :
    (RemoveAllNodes (New [(3, 2)] 160 true)).weightByNode = [(3, 2)] ∧
      (RemoveAllNodes (New [(3, 2)] 160 true)).weightByNode ≠ [] :=
  ⟨by decide, by decide⟩

/-- C6, amended.  `RemoveAllNodes` resets `sortedKeys` (positions),
`nodeByKey` (nodeAt) and `allNodes` (members) to empty in both modes, but
retains `weightByNode` unchanged (subsequent weighted placement reads it
after clearing), along with the mode flag and replica count. -/
theorem C6_remove_all_amended (st : HashRing Node) :
    (RemoveAllNodes st).sortedKeys = [] ∧
      (RemoveAllNodes st).nodeByKey = [] ∧
      (RemoveAllNodes st).allNodes = [] ∧
      (RemoveAllNodes st).weightByNode = st.weightByNode ∧
      (RemoveAllNodes st).isWeighted = st.isWeighted ∧
      (RemoveAllNodes st).numReps = st.numReps :=
  ⟨rfl, rfl, rfl, rfl, rfl, rfl⟩

/-- C1 (amended).  On every reachable ring, `Get` reports "not found"
exactly when the position table is empty, and otherwise returns the owner
of some stored position (a node recorded in `nodeAt`).  The original
claim's stronger reading — emptiness measured by the member set, and the
returned node a current member — fails on rings with orphaned positions
(see the counterexample); the stored-position reading is what the code
guarantees. -/
theorem C1_get_amended [DecidableEq Node] [Inhabited Node] (caps : Caps Node)
    (st : HashRing Node) (name : String) (hr : Reachable caps st) :
    (Get caps st name = none ↔ st.nodeByKey = []) ∧
      (∀ n, Get caps st name = some n → ∃ k, mapGet st.nodeByKey k = some n) := by
  obtain ⟨hnd, hss⟩ := reachable_invariant caps st hr
  by_cases hne : st.nodeByKey = []
  · constructor
    · simp [Get, hne]
    · intro n hn
      rw [Get] at hn
      simp [hne] at hn
  · have hGet := Get_eq_getNodeByHashKey caps st name hne
    rcases getNodeByHashKey_cases st (caps.keyHash name) hnd hss hne with
      ⟨n, hget, hres⟩ | ⟨hget, q, n, hres, hqn, hqmem, hcase⟩
    · constructor
      · rw [hGet, hres]
        simp [hne]
      · intro n' hn'
        rw [hGet, hres, Option.some_inj] at hn'
        exact ⟨caps.keyHash name, hn' ▸ hget⟩
    · constructor
      · rw [hGet, hres]
        simp [hne]
      · intro n' hn'
        rw [hGet, hres, Option.some_inj] at hn'
        exact ⟨q, hn' ▸ hqn⟩

/-- C1, witness for the amended theorem at a concrete reachable ring. -/
theorem C1_get_amended_witness :
    (Get cexCaps cexSt2 "k" = none ↔ cexSt2.nodeByKey = []) ∧
      (∀ n, Get cexCaps cexSt2 "k" = some n → ∃ k, mapGet cexSt2.nodeByKey k = some n) :=
  C1_get_amended cexCaps cexSt2 "k" cexSt2_reachable

/-- C7.  Resolution rule of `Get` on a non-empty reachable ring with
hashed key `h = keyHash name`: when `h` is itself a stored position its
owner is returned; otherwise the owner of the smallest stored position
`≥ h`; and when every stored position is `< h`, the owner of the smallest
stored position overall (wraparound to index 0). -/
theorem C7_resolution_rule [DecidableEq Node] [Inhabited Node] (caps : Caps Node)
    (st : HashRing Node) (name : String) (hr : Reachable caps st)
    (hne : st.nodeByKey ≠ []) :
    (∀ n, mapGet st.nodeByKey (caps.keyHash name) = some n →
      Get caps st name = some n) ∧
    (mapGet st.nodeByKey (caps.keyHash name) = none →
      (∃ p ∈ st.sortedKeys, caps.keyHash name ≤ p) →
      ∃ q n, Get caps st name = some n ∧ q ∈ st.sortedKeys ∧
        caps.keyHash name ≤ q ∧
        (∀ r ∈ st.sortedKeys, caps.keyHash name ≤ r → q ≤ r) ∧
        mapGet st.nodeByKey q = some n) ∧
    (mapGet st.nodeByKey (caps.keyHash name) = none →
      (∀ p ∈ st.sortedKeys, p < caps.keyHash name) →
      ∃ q n, Get caps st name = some n ∧ q ∈ st.sortedKeys ∧
        (∀ r ∈ st.sortedKeys, q ≤ r) ∧
        mapGet st.nodeByKey q = some n) := by
  obtain ⟨hnd, hss⟩ := reachable_invariant caps st hr
  have hGet := Get_eq_getNodeByHashKey caps st name hne
  rcases getNodeByHashKey_cases st (caps.keyHash name) hnd hss hne with
    ⟨n, hget, hres⟩ | ⟨hget, q, n, hres, hqn, hqmem, hcase⟩
  · refine ⟨?_, ?_, ?_⟩
    · intro n' hn'
      rw [hget, Option.some_inj] at hn'
      rw [hGet, hres, hn']
    · intro hnone
      rw [hget] at hnone
      cases hnone
    · intro hnone
      rw [hget] at hnone
      cases hnone
  · refine ⟨?_, ?_, ?_⟩
    · intro n' hn'
      rw [hget] at hn'
      cases hn'
    · intro _ hex
      rcases hcase with ⟨hhq, hmin⟩ | ⟨hall, _⟩
      · exact ⟨q, n, by rw [hGet, hres], hqmem, hhq, hmin, hqn⟩
      · obtain ⟨p, hp, hhp⟩ := hex
        exact absurd hhp (not_le_of_lt (hall p hp))
    · intro _ hall
      rcases hcase with ⟨hhq, _⟩ | ⟨_, hminall⟩
      · exact absurd hhq (not_le_of_lt (hall q hqmem))
      · exact ⟨q, n, by rw [hGet, hres], hqmem, hminall, hqn⟩

theorem isSameNode_refl (caps : Caps Node) (n : Node) : isSameNode caps n n = true := by
  simp [isSameNode]

theorem isSameNode_symm (caps : Caps Node) (a b : Node)
    (h : isSameNode caps a b = true) : isSameNode caps b a = true := by
  simp only [isSameNode, decide_eq_true_eq] at h ⊢
  exact h.symm

theorem isSameNode_trans (caps : Caps Node) (a b c : Node)
    (h1 : isSameNode caps a b = true) (h2 : isSameNode caps b c = true) :
    isSameNode caps a c = true := by
  simp only [isSameNode, decide_eq_true_eq] at h1 h2 ⊢
  exact h1.trans h2

theorem mem_foldl_setInsert [DecidableEq Node] (ns : List Node) (s : List Node)
    (a : Node) : a ∈ ns.foldl setInsert s ↔ a ∈ s ∨ a ∈ ns := by
  induction ns generalizing s with
  | nil => simp
  | cons n rest ih =>
    rw [List.foldl_cons, ih, mem_setInsert]
    constructor
    · rintro (⟨ha | ha⟩ | ha)
      · exact Or.inl ha
      · exact Or.inr (List.mem_cons.mpr (Or.inl ha))
      · exact Or.inr (List.mem_cons.mpr (Or.inr ha))
    · rintro (ha | ha)
      · exact Or.inl (Or.inl ha)
      · rcases List.mem_cons.mp ha with rfl | ha
        · exact Or.inl (Or.inr rfl)
        · exact Or.inr ha

theorem mem_foldl_setErase [DecidableEq Node] (ns : List Node) (s : List Node)
    (a : Node) : a ∈ ns.foldl setErase s ↔ a ∈ s ∧ a ∉ ns := by
  induction ns generalizing s with
  | nil => simp
  | cons n rest ih =>
    rw [List.foldl_cons, ih, mem_setErase]
    constructor
    · rintro ⟨⟨ha, hn⟩, hr⟩
      exact ⟨ha, by simp [hn, hr]⟩
    · rintro ⟨ha, hn⟩
      simp only [List.mem_cons, not_or] at hn
      exact ⟨⟨ha, hn.1⟩, hn.2⟩

theorem mem_toRemoveList (caps : Caps Node) (st : HashRing Node) (ns : List Node)
    (m : Node) :
    m ∈ toRemoveList caps st ns ↔
      m ∈ st.allNodes ∧ ∀ v ∈ ns, isSameNode caps m v = false := by
  rw [toRemoveList, List.mem_filter]
  simp only [Bool.not_eq_true', List.any_eq_false, Bool.not_eq_true]

theorem mem_toAddList (caps : Caps Node) (memb : List Node) (ns : List Node)
    (k : Node) :
    k ∈ toAddList caps memb ns ↔
      k ∈ ns ∧ ∀ v ∈ memb, isSameNode caps k v = false := by
  rw [toAddList, List.mem_filter]
  simp only [Bool.not_eq_true', List.any_eq_false, Bool.not_eq_true]

/-- C3 (amended).  `setNoWeightNodes` takes the full-clear path iff the
number of members matching no entry of `newSet` equals the *length of
`newSet`* (not iff `toRemove` covers the membership, which the
counterexample refutes); on the full-clear path every entry of `newSet`
is re-placed from scratch, and on the member-by-member path the final
member set keeps exactly the current members outside `toRemove`. -/
theorem C3_set_clear_condition_amended [DecidableEq Node] (caps : Caps Node)
    (st st' : HashRing Node) (ns : List Node) (fuel : Nat)
    (h : setNoWeightNodes caps st ns fuel = some st') :
    ((toRemoveList caps st ns).length = ns.length →
      st'.allNodes = ns.foldl setInsert []) ∧
    ((toRemoveList caps st ns).length ≠ ns.length →
      ∀ m ∈ st.allNodes, (m ∈ st'.allNodes ↔ m ∉ toRemoveList caps st ns)) := by
  obtain ⟨s1, hs1, hadd⟩ := setNoWeightNodes_decomp caps st st' ns fuel h
  obtain ⟨ha, _, _, _, _, _, _, _⟩ := addNoWeightNodes_spec caps s1 st' _ fuel hadd
  constructor
  · intro hc
    rw [if_pos hc, Option.some_inj] at hs1
    subst hs1
    have htoadd : toAddList caps (RemoveAllNodes st).allNodes ns = ns := by
      rw [RemoveAllNodes]
      simp [toAddList]
    rw [htoadd] at ha
    simpa using ha
  · intro hc m hm
    rw [if_neg hc] at hs1
    obtain ⟨he, _, _, _, _, _, _, _, _⟩ := removeNoWeightNodes_spec caps st s1 _ fuel hs1
    rw [ha, mem_foldl_setInsert, he, mem_foldl_setErase]
    constructor
    · rintro (⟨_, hnr⟩ | hadd2) hr
      · exact hnr hr
      · rcases (mem_toRemoveList caps st ns m).mp hr with ⟨_, hnone⟩
        rcases (mem_toAddList caps _ ns m).mp hadd2 with ⟨hmns, _⟩
        have hcontra := hnone m hmns
        rw [isSameNode_refl caps m] at hcontra
        cases hcontra
    · intro hnr
      exact Or.inl ⟨hm, hnr⟩

/-- C3, witness for the amended theorem: building `{0, 1}` from the empty
ring takes the member-by-member path. -/
theorem C3_set_clear_condition_amended_witness :
    ((toRemoveList cexCaps (New [] 1 false) [0, 1]).length = [0, 1].length →
      cexSt2.allNodes = [0, 1].foldl setInsert []) ∧
    ((toRemoveList cexCaps (New [] 1 false) [0, 1]).length ≠ [0, 1].length →
      ∀ m ∈ (New [] 1 false : HashRing Nat).allNodes,
        (m ∈ cexSt2.allNodes ↔ m ∉ toRemoveList cexCaps (New [] 1 false) [0, 1])) :=
  C3_set_clear_condition_amended cexCaps (New [] 1 false) cexSt2 [0, 1] 20 (by decide)

/-- After a successful `setNoWeightNodes(newSet)`, the member set matches
`newSet` up to formatter equality, in both directions. -/
theorem setNoWeightNodes_members [DecidableEq Node] (caps : Caps Node)
    (st st' : HashRing Node) (ns : List Node) (fuel : Nat)
    (h : setNoWeightNodes caps st ns fuel = some st') :
    (∀ k ∈ ns, ∃ m ∈ st'.allNodes, isSameNode caps k m = true) ∧
      (∀ m ∈ st'.allNodes, ∃ k ∈ ns, isSameNode caps m k = true) := by
  obtain ⟨s1, hs1, hadd⟩ := setNoWeightNodes_decomp caps st st' ns fuel h
  obtain ⟨ha, _, _, _, _, _, hfr, _⟩ := addNoWeightNodes_spec caps s1 st' _ fuel hadd
  have hs1members : ∀ m ∈ s1.allNodes, ∃ k ∈ ns, isSameNode caps m k = true := by
    intro m hm
    by_cases hc : (toRemoveList caps st ns).length = ns.length
    · rw [if_pos hc, Option.some_inj] at hs1
      subst hs1
      simp [RemoveAllNodes] at hm
    · rw [if_neg hc] at hs1
      obtain ⟨he, _, _, _, _, _, _, _, _⟩ := removeNoWeightNodes_spec caps st s1 _ fuel hs1
      rw [he, mem_foldl_setErase] at hm
      obtain ⟨hmall, hmnr⟩ := hm
      by_contra hnone
      push_neg at hnone
      refine hmnr ((mem_toRemoveList caps st ns m).mpr ⟨hmall, ?_⟩)
      intro v hv
      have := hnone v hv
      simpa using this
  constructor
  · intro k hk
    by_cases hmem : k ∈ toAddList caps s1.allNodes ns
    · refine ⟨k, ?_, isSameNode_refl caps k⟩
      rw [ha, mem_foldl_setInsert]
      exact Or.inr hmem
    · rw [mem_toAddList] at hmem
      push_neg at hmem
      obtain ⟨v, hv, hsame⟩ := hmem hk
      refine ⟨v, ?_, by simpa using hsame⟩
      rw [ha, mem_foldl_setInsert]
      exact Or.inl hv
  · intro m hm
    rw [ha, mem_foldl_setInsert] at hm
    rcases hm with hm | hm
    · exact hs1members m hm
    · rw [mem_toAddList] at hm
      exact ⟨m, hm.1, isSameNode_refl caps m⟩

/-- C4 (amended).  After a successful `setNoWeightNodes(newSet)` the member
set matches `newSet` up to formatter equality in both directions, and on
the member-by-member path (the clear path rebuilds everything, see the
counterexample) every current member outside `toRemove` stays a member and
keeps every virtual position it owned. -/
theorem C4_set_frame_amended [DecidableEq Node] (caps : Caps Node)
    (st st' : HashRing Node) (ns : List Node) (fuel : Nat)
    (h : setNoWeightNodes caps st ns fuel = some st') :
    (∀ k ∈ ns, ∃ m ∈ st'.allNodes, isSameNode caps k m = true) ∧
    (∀ m ∈ st'.allNodes, ∃ k ∈ ns, isSameNode caps m k = true) ∧
    ((toRemoveList caps st ns).length ≠ ns.length →
      ∀ m ∈ st.allNodes, m ∉ toRemoveList caps st ns →
        m ∈ st'.allNodes ∧
          ∀ p, mapGet st.nodeByKey p = some m → mapGet st'.nodeByKey p = some m) := by
  obtain ⟨s1, hs1, hadd⟩ := setNoWeightNodes_decomp caps st st' ns fuel h
  obtain ⟨ha, _, _, _, _, _, hfr, _⟩ := addNoWeightNodes_spec caps s1 st' _ fuel hadd
  obtain ⟨hm1, hm2⟩ := setNoWeightNodes_members caps st st' ns fuel h
  refine ⟨hm1, hm2, ?_⟩
  · intro hc m hmall hmnr
    rw [if_neg hc] at hs1
    obtain ⟨he, _, _, _, _, _, _, hkeep, _⟩ := removeNoWeightNodes_spec caps st s1 _ fuel hs1
    have hmatch : ∃ k ∈ ns, isSameNode caps m k = true := by
      by_contra hnone
      push_neg at hnone
      refine hmnr ((mem_toRemoveList caps st ns m).mpr ⟨hmall, ?_⟩)
      intro v hv
      have := hnone v hv
      simpa using this
    obtain ⟨k, hk, hmk⟩ := hmatch
    have hnotsame : ∀ r ∈ toRemoveList caps st ns, isSameNode caps m r = false := by
      intro r hr
      rcases (mem_toRemoveList caps st ns r).mp hr with ⟨_, hrnone⟩
      by_contra hmr
      simp only [Bool.not_eq_false] at hmr
      have hrk : isSameNode caps r k = true :=
        isSameNode_trans caps r m k (isSameNode_symm caps m r hmr) hmk
      rw [hrnone k hk] at hrk
      cases hrk
    constructor
    · rw [ha, mem_foldl_setInsert]
      left
      rw [he, mem_foldl_setErase]
      exact ⟨hmall, hmnr⟩
    · intro p hp
      exact hfr p m (hkeep p m hp hnotsame)

/-- C4, witness for the amended theorem at the member-by-member path. -/
theorem C4_set_frame_amended_witness :
    (∀ k ∈ [0, 1], ∃ m ∈ cexSt2.allNodes, isSameNode cexCaps k m = true) ∧
    (∀ m ∈ cexSt2.allNodes, ∃ k ∈ [0, 1], isSameNode cexCaps m k = true) ∧
    ((toRemoveList cexCaps (New [] 1 false) [0, 1]).length ≠ [0, 1].length →
      ∀ m ∈ (New [] 1 false : HashRing Nat).allNodes,
        m ∉ toRemoveList cexCaps (New [] 1 false) [0, 1] →
        m ∈ cexSt2.allNodes ∧
          ∀ p, mapGet (New [] 1 false : HashRing Nat).nodeByKey p = some m →
            mapGet cexSt2.nodeByKey p = some m) :=
  C4_set_frame_amended cexCaps (New [] 1 false) cexSt2 [0, 1] 20 (by decide)

theorem updateSortedNodes_eq_self (st : HashRing Node) (h : SortSync st) :
    updateSortedNodes st = st := by
  rw [SortSync] at h
  cases st with
  | mk sk nk an wb iw nr =>
    have h2 : sk = List.insertionSort (· ≤ ·) (nk.map Prod.fst) := h
    show HashRing.mk (List.insertionSort (· ≤ ·) (nk.map Prod.fst)) nk an wb iw nr =
      HashRing.mk sk nk an wb iw nr
    rw [← h2]

theorem removeNoWeightNodes_nil [DecidableEq Node] (caps : Caps Node)
    (st : HashRing Node) (fuel : Nat) :
    removeNoWeightNodes caps st [] fuel = some (updateSortedNodes st) := rfl

theorem addNoWeightNodes_nil [DecidableEq Node] (caps : Caps Node)
    (st : HashRing Node) (fuel : Nat) :
    addNoWeightNodes caps st [] fuel = some (updateSortedNodes st) := rfl

/-- The result of `setWeightNodes` depends on the input state only through
the weight table, the replica count and the mode flag (everything else is
cleared before placement). -/
theorem setWeightNodes_congr [DecidableEq Node] (caps : Caps Node)
    (st t : HashRing Node) (ns : List Node) (fuel : Nat)
    (hw : st.weightByNode = t.weightByNode) (hr : st.numReps = t.numReps)
    (hi : st.isWeighted = t.isWeighted) :
    setWeightNodes caps st ns fuel = setWeightNodes caps t ns fuel := by
  cases st with
  | mk sk nk an wb iw nr =>
    cases t with
    | mk sk2 nk2 an2 wb2 iw2 nr2 =>
      have hw2 : wb = wb2 := hw
      have hr2 : nr = nr2 := hr
      have hi2 : iw = iw2 := hi
      subst hw2
      subst hr2
      subst hi2
      rfl

/-- C9 (amended).  Formatter equality is the identity used by membership
reconciliation and removal: `setNoWeightNodes` neither re-adds a `newSet`
entry whose replica-0 label matches a current member nor removes a member
whose label matches a `newSet` entry, and `removeNoWeightNodes` deletes a
stored position only when its owner is formatter-equal to one of the
removed nodes.  (The claimed global no-duplicate-members invariant and
rejection by `AddNodes` are refuted by the counterexample: `AddNodes`
performs no formatter check.) -/
theorem C9_formatter_equality_amended [DecidableEq Node] (caps : Caps Node)
    (st st' : HashRing Node) (ns : List Node) (fuel : Nat) :
    (∀ k ∈ ns, (∃ v ∈ st.allNodes, isSameNode caps k v = true) →
      k ∉ toAddList caps st.allNodes ns) ∧
    (∀ m ∈ st.allNodes, (∃ v ∈ ns, isSameNode caps m v = true) →
      m ∉ toRemoveList caps st ns) ∧
    (removeNoWeightNodes caps st ns fuel = some st' →
      ∀ p v, mapGet st.nodeByKey p = some v → mapGet st'.nodeByKey p = none →
        ∃ r ∈ ns, isSameNode caps v r = true) := by
  refine ⟨?_, ?_, ?_⟩
  · rintro k hk ⟨v, hv, hkv⟩ hmem
    rcases (mem_toAddList caps st.allNodes ns k).mp hmem with ⟨_, hnone⟩
    rw [hnone v hv] at hkv
    cases hkv
  · rintro m hm ⟨v, hv, hmv⟩ hmem
    rcases (mem_toRemoveList caps st ns m).mp hmem with ⟨_, hnone⟩
    rw [hnone v hv] at hmv
    cases hmv
  · intro h p v hp hdel
    obtain ⟨_, _, _, _, _, _, _, _, hdelc⟩ := removeNoWeightNodes_spec caps st st' ns fuel h
    exact hdelc p v hp hdel

/-- C9, witness: the amended statement instantiated at the concrete
removal `RemoveNodes(0)` on the two-member ring. -/
theorem C9_formatter_equality_amended_witness :
    (∀ k ∈ [0], (∃ v ∈ cexSt2.allNodes, isSameNode cexCaps k v = true) →
      k ∉ toAddList cexCaps cexSt2.allNodes [0]) ∧
    (∀ m ∈ cexSt2.allNodes, (∃ v ∈ [0], isSameNode cexCaps m v = true) →
      m ∉ toRemoveList cexCaps cexSt2 [0]) ∧
    (removeNoWeightNodes cexCaps cexSt2 [0] 20 = some cexSt3 →
      ∀ p v, mapGet cexSt2.nodeByKey p = some v → mapGet cexSt3.nodeByKey p = none →
        ∃ r ∈ [0], isSameNode cexCaps v r = true) :=
  C9_formatter_equality_amended cexCaps cexSt2 cexSt3 [0] 20

/-- C10 (amended).  `SetNodes` is idempotent in weighted mode, and in
unweighted mode whenever the node list is non-empty: a second call with
the same list returns the state unchanged.  (For the empty unweighted
list the length-comparison quirk of the clear condition makes the second
call take the full-clear path, which can erase positions orphaned by
hash collisions — see the counterexample.) -/
theorem C10_set_idempotent_amended [DecidableEq Node] (caps : Caps Node)
    (st st' : HashRing Node) (ns : List Node) (fuel : Nat)
    (h : SetNodes caps st ns fuel = some st')
    (hns : st.isWeighted = true ∨ ns ≠ []) :
    SetNodes caps st' ns fuel = some st' := by
  rw [SetNodes] at h
  by_cases hwt : st.isWeighted
  · rw [if_pos hwt] at h
    obtain ⟨_, hw, hiw, hnr, _, _, _⟩ := setWeightNodes_spec caps st st' ns fuel h
    rw [SetNodes, if_pos (show st'.isWeighted = true by rw [hiw]; exact hwt)]
    rw [setWeightNodes_congr caps st' st ns fuel hw hnr hiw]
    exact h
  · rcases hns with hns | hns
    · exact absurd hns hwt
    · rw [if_neg hwt] at h
      obtain ⟨s1, hs1, hadd⟩ := setNoWeightNodes_decomp caps st st' ns fuel h
      obtain ⟨_, hw, hiw, hnr, hss', _, _, _⟩ := addNoWeightNodes_spec caps s1 st' _ fuel hadd
      obtain ⟨hm1, hm2⟩ := setNoWeightNodes_members caps st st' ns fuel h
      have hiw' : st'.isWeighted = st.isWeighted := by
        by_cases hc : (toRemoveList caps st ns).length = ns.length
        · rw [if_pos hc, Option.some_inj] at hs1
          subst hs1
          rw [hiw]
          rfl
        · rw [if_neg hc] at hs1
          obtain ⟨_, _, hiw1, _, _, _, _, _, _⟩ :=
            removeNoWeightNodes_spec caps st s1 _ fuel hs1
          rw [hiw, hiw1]
      rw [SetNodes, if_neg (show ¬st'.isWeighted = true by rw [hiw']; exact hwt)]
      have hT : toRemoveList caps st' ns = [] := by
        rw [toRemoveList, List.filter_eq_nil_iff]
        intro m hm
        obtain ⟨k, hk, hmk⟩ := hm2 m hm
        simp only [Bool.not_eq_true', Bool.not_eq_false, List.any_eq_true]
        exact ⟨k, hk, hmk⟩
      have hA : toAddList caps st'.allNodes ns = [] := by
        rw [toAddList, List.filter_eq_nil_iff]
        intro k hk
        obtain ⟨m, hm, hkm⟩ := hm1 k hk
        simp only [Bool.not_eq_true', Bool.not_eq_false, List.any_eq_true]
        exact ⟨m, hm, hkm⟩
      have hlen : ¬(toRemoveList caps st' ns).length = ns.length := by
        rw [hT]
        intro hcon
        exact hns (List.length_eq_zero.mp hcon.symm)
      rw [setNoWeightNodes, if_neg hlen, hT, removeNoWeightNodes_nil,
        updateSortedNodes_eq_self st' hss', Option.some_bind, hA,
        addNoWeightNodes_nil, updateSortedNodes_eq_self st' hss']

/-- C10, witness: a second `SetNodes(0, 1)` on the ring just built with
`SetNodes(0, 1)` returns it unchanged. -/
theorem C10_set_idempotent_amended_witness :
    SetNodes cexCaps cexSt2 [0, 1] 20 = some cexSt2 :=
  C10_set_idempotent_amended cexCaps (New [] 1 false) cexSt2 [0, 1] 20 (by decide)
    (Or.inr (by decide))

theorem keepNew_nodup_strong [DecidableEq α] (l : List α) :
    ∀ seen, (keepNew seen l).Nodup ∧ ∀ a ∈ keepNew seen l, a ∉ seen := by
  induction l with
  | nil =>
    intro seen
    simp [keepNew]
  | cons a l ih =>
    intro seen
    rw [keepNew]
    by_cases ha : a ∈ seen
    · rw [if_pos ha]
      exact ih seen
    · rw [if_neg ha]
      obtain ⟨hnd, hnotin⟩ := ih (a :: seen)
      refine ⟨List.nodup_cons.mpr ⟨?_, hnd⟩, ?_⟩
      · intro hmem
        exact (hnotin a hmem) (List.mem_cons_self a seen)
      · intro b hb
        rcases List.mem_cons.mp hb with rfl | hb2
        · exact ha
        · intro hbseen
          exact (hnotin b hb2) (List.mem_cons_of_mem _ hbseen)

theorem keepNew_mem [DecidableEq α] (l : List α) :
    ∀ (seen : List α) (a : α), a ∈ keepNew seen l ↔ a ∈ l ∧ a ∉ seen := by
  induction l with
  | nil =>
    intro seen a
    simp [keepNew]
  | cons b l ih =>
    intro seen a
    rw [keepNew]
    by_cases hb : b ∈ seen
    · rw [if_pos hb, ih]
      constructor
      · rintro ⟨ha, hs⟩
        exact ⟨List.mem_cons_of_mem _ ha, hs⟩
      · rintro ⟨ha, hs⟩
        rcases List.mem_cons.mp ha with rfl | ha2
        · exact absurd hb hs
        · exact ⟨ha2, hs⟩
    · rw [if_neg hb, List.mem_cons, ih]
      constructor
      · rintro (rfl | ⟨ha, hs⟩)
        · exact ⟨List.mem_cons_self _ _, hb⟩
        · refine ⟨List.mem_cons_of_mem _ ha, fun hsa => hs (List.mem_cons_of_mem _ hsa)⟩
      · rintro ⟨ha, hs⟩
        by_cases hab : a = b
        · exact Or.inl hab
        · right
          refine ⟨?_, ?_⟩
          · rcases List.mem_cons.mp ha with h1 | h1
            · exact absurd h1 hab
            · exact h1
          · intro hcons
            rcases List.mem_cons.mp hcons with h2 | h2
            · exact hab h2
            · exact hs h2

theorem collectSince_eq_keepNew [DecidableEq Node] [Inhabited Node]
    (st : HashRing Node) (idxs : List Nat) :
    ∀ seen, collectSince st seen idxs =
      keepNew seen (idxs.map (getNodeByHashKeyIndex st)) := by
  induction idxs with
  | nil =>
    intro seen
    rfl
  | cons i is ih =>
    intro seen
    simp only [collectSince, List.map_cons, keepNew]
    by_cases hn : getNodeByHashKeyIndex st i ∈ seen
    · rw [if_pos hn, if_pos hn, ih]
    · rw [if_neg hn, if_neg hn, ih]

theorem GetSince_eq [DecidableEq Node] [Inhabited Node] (caps : Caps Node)
    (st : HashRing Node) (name : String) (hne : st.nodeByKey ≠ []) :
    GetSince caps st name =
      getNodeByHashKeyIndex st (startIndex caps st name) ::
        collectSince st [getNodeByHashKeyIndex st (startIndex caps st name)]
          ((List.range (st.sortedKeys.length - 1)).map
            (fun k => (startIndex caps st name + 1 + k) % st.sortedKeys.length)) := by
  rw [GetSince, isEmpty_false_of_ne_nil hne]
  rfl

theorem startIndex_lt (caps : Caps Node) (st : HashRing Node) (name : String)
    (hkne : st.sortedKeys ≠ []) :
    startIndex caps st name < st.sortedKeys.length := by
  rw [startIndex]
  cases hf : List.findIdx? (fun v => decide (caps.keyHash name ≤ v)) st.sortedKeys 0 with
  | none =>
    have hts : tailSearch st.sortedKeys (caps.keyHash name) =
        (st.sortedKeys.length, false) := by
      rw [tailSearch]
      rw [show List.findIdx? (fun v => decide (caps.keyHash name ≤ v)) st.sortedKeys =
        List.findIdx? (fun v => decide (caps.keyHash name ≤ v)) st.sortedKeys 0 from rfl, hf]
    rw [hts]
    simpa using List.length_pos.mpr hkne
  | some j =>
    have hts : tailSearch st.sortedKeys (caps.keyHash name) = (j, true) := by
      rw [tailSearch]
      rw [show List.findIdx? (fun v => decide (caps.keyHash name ≤ v)) st.sortedKeys =
        List.findIdx? (fun v => decide (caps.keyHash name ≤ v)) st.sortedKeys 0 from rfl, hf]
    rw [hts]
    obtain ⟨l₁, x, l₂, hl, hlen0, _, _⟩ := findIdx?_some_spec _ _ _ _ hf
    simp only [Nat.zero_add] at hlen0
    simp only [if_pos]
    rw [hl, ← hlen0]
    simp [List.length_append]

theorem clockwiseOwners_eq [Inhabited Node] (st : HashRing Node) (start : Nat)
    (hstart : start < st.sortedKeys.length) :
    clockwiseOwners st start =
      getNodeByHashKeyIndex st start ::
        (List.range (st.sortedKeys.length - 1)).map
          (fun k => getNodeByHashKeyIndex st ((start + 1 + k) % st.sortedKeys.length)) := by
  rw [clockwiseOwners]
  obtain ⟨L, hL⟩ : ∃ L, st.sortedKeys.length = L + 1 := ⟨st.sortedKeys.length - 1, by omega⟩
  rw [hL, List.range_succ_eq_map, List.map_cons, List.map_map]
  congr 1
  · rw [Nat.add_zero, Nat.mod_eq_of_lt (by omega)]
  · rw [Nat.add_sub_cancel]
    apply List.map_congr_left
    intro k _
    simp only [Function.comp_apply]
    congr 2
    omega

theorem mem_clockwiseOwners [Inhabited Node] (st : HashRing Node) (start : Nat)
    (n : Node) (hnd : KeysNodup st) (hss : SortSync st)
    (hstart : start < st.sortedKeys.length) :
    n ∈ clockwiseOwners st start ↔ ∃ k, mapGet st.nodeByKey k = some n := by
  obtain ⟨hsort, hmem, hnekeys⟩ := sorted_pack st hnd hss
  rw [clockwiseOwners]
  constructor
  · intro hn
    rw [List.mem_map] at hn
    obtain ⟨c, hc, howner⟩ := hn
    have hjlt : (start + c) % st.sortedKeys.length < st.sortedKeys.length :=
      Nat.mod_lt _ (by omega)
    have hkey : st.sortedKeys.getD ((start + c) % st.sortedKeys.length) 0 ∈
        st.sortedKeys := by
      rw [List.getD_eq_getElem _ _ hjlt]
      exact List.getElem_mem _
    have hstored := (hmem _).mp hkey
    obtain ⟨v, hv⟩ := Option.isSome_iff_exists.mp ((mapGet_isSome_iff _ _).mpr hstored)
    rw [getNodeByHashKeyIndex, hv] at howner
    simp only [Option.getD_some] at howner
    exact ⟨_, by rw [hv, howner]⟩
  · rintro ⟨k, hk⟩
    have hkmem : k ∈ st.sortedKeys :=
      (hmem k).mpr ((mapGet_isSome_iff _ _).mp (by rw [hk]; rfl))
    obtain ⟨⟨j, hjlt⟩, hjget⟩ := List.mem_iff_get.mp hkmem
    have howner : getNodeByHashKeyIndex st j = n := by
      rw [getNodeByHashKeyIndex, List.getD_eq_getElem _ _ hjlt]
      rw [show st.sortedKeys[j] = k from hjget, hk]
      rfl
    refine List.mem_map.mpr
      ⟨if start ≤ j then j - start else st.sortedKeys.length + j - start,
        List.mem_range.mpr ?_, ?_⟩
    · by_cases hsj : start ≤ j
      · rw [if_pos hsj]
        omega
      · rw [if_neg hsj]
        omega
    · by_cases hsj : start ≤ j
      · rw [if_pos hsj, show start + (j - start) = j from by omega,
          Nat.mod_eq_of_lt hjlt]
        exact howner
      · rw [if_neg hsj,
          show start + (st.sortedKeys.length + j - start) = st.sortedKeys.length + j
            from by omega,
          Nat.add_mod_left, Nat.mod_eq_of_lt hjlt]
        exact howner

theorem Get_eq_owner_start [DecidableEq Node] [Inhabited Node] (caps : Caps Node)
    (st : HashRing Node) (name : String) (hnd : KeysNodup st) (hss : SortSync st)
    (hne : st.nodeByKey ≠ []) :
    Get caps st name = some (getNodeByHashKeyIndex st (startIndex caps st name)) := by
  have hGet := Get_eq_getNodeByHashKey caps st name hne
  obtain ⟨hsort, hmem, hnekeys⟩ := sorted_pack st hnd hss
  have hkne := hnekeys hne
  have hemp : st.sortedKeys.isEmpty = false := isEmpty_false_of_ne_nil hkne
  rw [hGet, getNodeByHashKey, hemp]
  simp only [Bool.false_eq_true, if_false]
  cases hget : mapGet st.nodeByKey (caps.keyHash name) with
  | none => rfl
  | some n =>
    have hh : caps.keyHash name ∈ st.sortedKeys :=
      (hmem _).mpr ((mapGet_isSome_iff _ _).mp (by rw [hget]; rfl))
    cases hf : List.findIdx? (fun v => decide (caps.keyHash name ≤ v)) st.sortedKeys 0 with
    | none =>
      have := findIdx?_none_spec _ _ _ hf _ hh
      simp at this
    | some j =>
      obtain ⟨l₁, x, l₂, hl, hlen0, hx, hall⟩ := findIdx?_some_spec _ _ _ _ hf
      simp only [Nat.zero_add] at hlen0
      have hxh : x = caps.keyHash name := by
        rw [hl] at hh hsort
        rcases List.mem_append.mp hh with h1 | h2
        · have := hall _ h1
          simp only [decide_eq_false_iff_not, not_le] at this
          omega
        · rcases List.mem_cons.mp h2 with heq | h3
          · exact heq.symm
          · have hpc : List.Pairwise (· < ·) (l₁ ++ x :: l₂) := hsort
            have hxlt := List.rel_of_sorted_cons (List.pairwise_append.mp hpc).2.1 _ h3
            simp only [decide_eq_true_eq] at hx
            omega
      have hstart : startIndex caps st name = j := by
        rw [startIndex, tailSearch]
        rw [show List.findIdx? (fun v => decide (caps.keyHash name ≤ v)) st.sortedKeys =
          List.findIdx? (fun v => decide (caps.keyHash name ≤ v)) st.sortedKeys 0 from rfl,
          hf]
        rfl
      have hgetD : st.sortedKeys.getD j 0 = x := by
        rw [← hlen0, hl, getD_append_length]
      have hidx : getNodeByHashKeyIndex st j = n := by
        rw [getNodeByHashKeyIndex, hgetD, hxh, hget]
        rfl
      rw [hstart, hidx]

/-- C8 (amended).  Fully consuming `GetSince(key)` on a non-empty
reachable ring yields the keep-first deduplication of the owners of the
sorted positions read clockwise from the resolved start index: the
sequence has no duplicates, it contains exactly the distinct owner nodes
of the position table (not the distinct members — a member owning no
position is never yielded, see the counterexample), and it starts with
the node `Get(key)` resolves to. -/
theorem C8_traversal_amended [DecidableEq Node] [Inhabited Node] (caps : Caps Node)
    (st : HashRing Node) (name : String) (hr : Reachable caps st)
    (hne : st.nodeByKey ≠ []) :
    GetSince caps st name =
      keepNew [] (clockwiseOwners st (startIndex caps st name)) ∧
    (GetSince caps st name).Nodup ∧
    (∀ n, n ∈ GetSince caps st name ↔ ∃ k, mapGet st.nodeByKey k = some n) ∧
    (GetSince caps st name).head? = Get caps st name := by
  obtain ⟨hnd, hss⟩ := reachable_invariant caps st hr
  obtain ⟨hsort, hmem, hnekeys⟩ := sorted_pack st hnd hss
  have hkne := hnekeys hne
  have hstartlt := startIndex_lt caps st name hkne
  have hGS := GetSince_eq caps st name hne
  have hCO := clockwiseOwners_eq st (startIndex caps st name) hstartlt
  have hEq : GetSince caps st name =
      keepNew [] (clockwiseOwners st (startIndex caps st name)) := by
    rw [hGS, hCO, keepNew, if_neg (List.not_mem_nil _)]
    congr 1
    rw [collectSince_eq_keepNew, List.map_map]
    rfl
  refine ⟨hEq, ?_, ?_, ?_⟩
  · rw [hEq]
    exact (keepNew_nodup_strong _ _).1
  · intro n
    rw [hEq, keepNew_mem]
    simp only [List.not_mem_nil, not_false_iff, and_true]
    exact mem_clockwiseOwners st _ n hnd hss hstartlt
  · rw [hGS]
    simp only [List.head?_cons]
    rw [Get_eq_owner_start caps st name hnd hss hne]

/-- C8, witness for the amended theorem on a concrete two-owner ring. -/
theorem C8_traversal_amended_witness :
    (GetSince cexCaps cexSt2 "k" =
      keepNew [] (clockwiseOwners cexSt2 (startIndex cexCaps cexSt2 "k"))) ∧
    (GetSince cexCaps cexSt2 "k").Nodup ∧
    (∀ n, n ∈ GetSince cexCaps cexSt2 "k" ↔
      ∃ k, mapGet cexSt2.nodeByKey k = some n) ∧
    (GetSince cexCaps cexSt2 "k").head? = Get cexCaps cexSt2 "k" :=
  C8_traversal_amended cexCaps cexSt2 "k" cexSt2_reachable (by decide)

/-! ## Rational-arithmetic lemmas for weighted proportionality (C2) -/

theorem sum_map_intCast (ws : List Int) :
    (ws.map (fun w : ℤ => (w : ℚ))).sum = ((ws.sum : ℤ) : ℚ) := by
  induction ws with
  | nil => simp
  | cons w rest ih =>
    rw [List.map_cons, List.sum_cons, ih, List.sum_cons, Int.cast_add]

theorem sum_map_mul_const (ws : List Int) (c : ℚ) :
    (ws.map (fun w : ℤ => (w : ℚ) * c)).sum = ((ws.sum : ℤ) : ℚ) * c := by
  induction ws with
  | nil => simp
  | cons w rest ih =>
    rw [List.map_cons, List.sum_cons, ih, List.sum_cons, Int.cast_add, add_mul]

theorem sum_map_add_const {α : Type _} (l : List α) (f : α → ℚ) (c : ℚ) :
    (l.map (fun x => f x + c)).sum = (l.map f).sum + l.length * c := by
  induction l with
  | nil => simp
  | cons x rest ih =>
    simp only [List.map_cons, List.sum_cons, ih, List.length_cons]
    push_cast
    ring

/-- The `1e10` bias is an exact integer, so the floor in `pointerPerServer`
splits off the bias exactly, and for a non-negative share the `toNat` cast
is lossless. -/
theorem pointerPerServer_int (w T : Int) (R n : Nat)
    (hq : (0 : ℚ) ≤ (w : ℚ) / (T : ℚ)) :
    (pointerPerServer w T R n : ℤ) =
      Int.floor ((w : ℚ) / (T : ℚ) * (R : ℚ) * (n : ℚ)) + 10 ^ 10 := by
  rw [pointerPerServer]
  have h1 : ((w : ℚ) / (T : ℚ) * (R : ℚ) * (n : ℚ) + 10 ^ 10 : ℚ) =
      (w : ℚ) / (T : ℚ) * (R : ℚ) * (n : ℚ) + ((10 ^ 10 : ℤ) : ℚ) := by
    push_cast
    ring
  rw [h1, Int.floor_add_int, Int.toNat_of_nonneg]
  have hfl : (0 : ℤ) ≤ Int.floor ((w : ℚ) / (T : ℚ) * (R : ℚ) * (n : ℚ)) := by
    apply Int.floor_nonneg.mpr
    positivity
  positivity

/-- Core error estimate: with share `P ∈ [0,1]`, floor-sum `S` within `n`
below the exact total `RN`, per-node floor `F` within 1 below `P * RN`,
and bias `E ≥ 1`, the centred numerator is bounded by a constant
independent of `RN`. -/
theorem share_err_bound (P S F RN n E : ℚ)
    (hP0 : 0 ≤ P) (hP1 : P ≤ 1) (hn : 1 ≤ n) (hE : 1 ≤ E)
    (hS1 : RN - n ≤ S) (hS2 : S ≤ RN)
    (hF1 : P * RN - 1 ≤ F) (hF2 : F ≤ P * RN) :
    |F + E - P * (S + n * E)| ≤ E * (n + 1) + n + 1 := by
  have h1 : P * S ≤ P * RN := mul_le_mul_of_nonneg_left hS2 hP0
  have h2 : P * (RN - n) ≤ P * S := mul_le_mul_of_nonneg_left hS1 hP0
  have h3 : P * (n * E) ≤ 1 * (n * E) :=
    mul_le_mul_of_nonneg_right hP1 (by positivity)
  have h4 : (0 : ℚ) ≤ P * (n * E) := by positivity
  have h5 : P * n ≤ 1 * n := mul_le_mul_of_nonneg_right hP1 (by linarith)
  have h6 : (0 : ℚ) ≤ P * n := by positivity
  rw [abs_le]
  constructor
  · nlinarith [h1, h3, hF1, hE, hn]
  · nlinarith [h2, h4, hF2, h5, hE, hn]

/-- C2.  Weighted proportionality of `pointerPerServer`, the per-node
position budget computed by `setWeightNodes`: (i) the budget is exactly
`floor((wᵢ/Σw) · replicasPerNode · nodeCount) + 10^10` (the `1e10` bias is
an integer, so it shifts the floor exactly rather than acting as a
fractional tie-breaker), and (ii) node `i`'s fraction of the total
requested positions converges to `wᵢ/Σw` as `replicasPerNode` grows: for
every `ε > 0` there is an `R₀` beyond which the fraction is within `ε`
(the constant bias inflates every node's budget equally, so it washes out
in the limit although it dominates for small `replicasPerNode`). -/
theorem C2_weighted_proportionality (ws : List Int) (i : Nat) (hi : i < ws.length)
    (hpos : ∀ w ∈ ws, 0 < w) (ε : ℚ) (hε : 0 < ε) :
    (∀ R : Nat,
      (pointerPerServer (ws.get ⟨i, hi⟩) ws.sum R ws.length : ℤ) =
        Int.floor ((ws.get ⟨i, hi⟩ : ℚ) / (ws.sum : ℚ) * (R : ℚ) * (ws.length : ℚ)) +
          10 ^ 10) ∧
    ∃ R₀ : Nat, ∀ R : Nat, R₀ ≤ R →
      |(pointerPerServer (ws.get ⟨i, hi⟩) ws.sum R ws.length : ℚ) /
          (ws.map (fun w : ℤ => (pointerPerServer w ws.sum R ws.length : ℚ))).sum -
        (ws.get ⟨i, hi⟩ : ℚ) / (ws.sum : ℚ)| < ε := by
  have hwi : ws.get ⟨i, hi⟩ ∈ ws := List.get_mem ws i hi
  have hwipos : 0 < ws.get ⟨i, hi⟩ := hpos _ hwi
  have hW : 0 < ws.sum :=
    lt_of_lt_of_le hwipos
      (List.single_le_sum (fun x hx => le_of_lt (hpos x hx)) _ hwi)
  have hWq : (0 : ℚ) < ((ws.sum : ℤ) : ℚ) := by exact_mod_cast hW
  have hn1 : 1 ≤ ws.length := by omega
  have hq : ∀ w ∈ ws, (0 : ℚ) ≤ (w : ℚ) / ((ws.sum : ℤ) : ℚ) := by
    intro w hw
    have : (0 : ℚ) < (w : ℚ) := by exact_mod_cast hpos w hw
    positivity
  refine ⟨fun R => pointerPerServer_int (ws.get ⟨i, hi⟩) ws.sum R ws.length (hq _ hwi), ?_⟩
  set nQ : ℚ := (ws.length : ℚ) with hnQ
  set E : ℚ := 10 ^ 10 with hE
  set C0 : ℚ := E * (nQ + 1) + nQ + 1 with hC0
  have hnQ1 : 1 ≤ nQ := by
    rw [hnQ]
    exact_mod_cast hn1
  have hE1 : (1 : ℚ) ≤ E := by norm_num [hE]
  have hC0pos : 0 < C0 := by
    rw [hC0]
    nlinarith
  refine ⟨(Int.ceil (C0 / ε)).toNat + 1, ?_⟩
  intro R hR
  set P : ℚ := (ws.get ⟨i, hi⟩ : ℚ) / ((ws.sum : ℤ) : ℚ) with hP
  set RN : ℚ := (R : ℚ) * nQ with hRN
  set sR : ℤ → ℚ := fun w => (w : ℚ) / ((ws.sum : ℤ) : ℚ) * (R : ℚ) * nQ with hsR
  set S : ℚ := (ws.map (fun w : ℤ => (Int.floor (sR w) : ℚ))).sum with hS
  -- the total of the exact (un-floored) shares is R * n
  have hT : (ws.map (fun w : ℤ => sR w)).sum = RN := by
    have h1 : (ws.map (fun w : ℤ => sR w)).sum =
        (ws.map (fun w : ℤ => (w : ℚ) * ((R : ℚ) * nQ / ((ws.sum : ℤ) : ℚ)))).sum := by
      apply congrArg
      apply List.map_congr_left
      intro w _
      rw [hsR]
      field_simp
      ring
    rw [h1, sum_map_mul_const, hRN]
    rw [mul_comm ((ws.sum : ℤ) : ℚ) _, div_mul_eq_mul_div, mul_div_assoc,
      div_self (ne_of_gt hWq), mul_one]
  -- each budget is the floored share plus the bias, as a rational
  have hptr : ∀ w ∈ ws, (pointerPerServer w ws.sum R ws.length : ℚ) =
      (Int.floor (sR w) : ℚ) + E := by
    intro w hw
    have h2 := pointerPerServer_int w ws.sum R ws.length (hq w hw)
    have h3 : ((pointerPerServer w ws.sum R ws.length : ℕ) : ℚ) =
        (((pointerPerServer w ws.sum R ws.length : ℕ) : ℤ) : ℚ) := by norm_cast
    have h5 : sR w = (w : ℚ) / ((ws.sum : ℤ) : ℚ) * (R : ℚ) * (ws.length : ℚ) := rfl
    rw [h5, h3, h2, Int.cast_add, hE]
    norm_num
  -- hence the total of the budgets is S + n * E
  have hA : (ws.map (fun w : ℤ => (pointerPerServer w ws.sum R ws.length : ℚ))).sum =
      S + nQ * E := by
    have h1 : (ws.map (fun w : ℤ => (pointerPerServer w ws.sum R ws.length : ℚ))).sum =
        (ws.map (fun w : ℤ => (Int.floor (sR w) : ℚ) + E)).sum := by
      apply congrArg
      apply List.map_congr_left
      intro w hw
      exact hptr w hw
    rw [h1, sum_map_add_const, hS, hnQ]
  -- bounds on the floored-share total
  have hS2 : S ≤ RN := by
    rw [hS, ← hT]
    exact List.sum_le_sum (fun w _ => Int.floor_le (sR w))
  have hS1 : RN - nQ ≤ S := by
    have h1 : (ws.map (fun w : ℤ => sR w + (-1 : ℚ))).sum =
        RN + (ws.length : ℚ) * (-1) := by
      rw [sum_map_add_const, hT]
    have h2 : (ws.map (fun w : ℤ => sR w + (-1 : ℚ))).sum ≤ S := by
      rw [hS]
      exact List.sum_le_sum (fun w _ => le_of_lt (by
        have := Int.sub_one_lt_floor (sR w)
        linarith))
    rw [h1] at h2
    rw [hnQ]
    linarith
  -- bounds on node i's floored share
  have hsi : sR (ws.get ⟨i, hi⟩) = P * RN := by
    rw [hsR, hP, hRN]
    ring
  have hF2 : (Int.floor (sR (ws.get ⟨i, hi⟩)) : ℚ) ≤ P * RN := by
    rw [← hsi]
    exact Int.floor_le _
  have hF1 : P * RN - 1 ≤ (Int.floor (sR (ws.get ⟨i, hi⟩)) : ℚ) := by
    rw [← hsi]
    exact le_of_lt (Int.sub_one_lt_floor _)
  -- the share is a probability
  have hP0 : 0 < P := by
    rw [hP]
    have : (0 : ℚ) < (ws.get ⟨i, hi⟩ : ℚ) := by exact_mod_cast hwipos
    positivity
  have hP1 : P ≤ 1 := by
    rw [hP]
    rw [div_le_one hWq]
    exact_mod_cast List.single_le_sum (fun x hx => le_of_lt (hpos x hx)) _ hwi
  have hRN0 : 0 ≤ RN := by
    rw [hRN]
    positivity
  -- the centred numerator is bounded by the constant C0
  have hnum := share_err_bound P S (Int.floor (sR (ws.get ⟨i, hi⟩)) : ℚ) RN nQ E
    (le_of_lt hP0) hP1 hnQ1 hE1 hS1 hS2 hF1 hF2
  -- the denominator is at least R, hence positive
  have hRq1 : (1 : ℚ) ≤ (R : ℚ) := by
    have : 1 ≤ R := by omega
    exact_mod_cast this
  have hAR : (R : ℚ) ≤ S + nQ * E := by
    have h1 : (R : ℚ) * 1 ≤ (R : ℚ) * nQ :=
      mul_le_mul_of_nonneg_left hnQ1 (by linarith)
    have h2 : 0 ≤ nQ * (E - 1) := by nlinarith
    rw [hRN] at hS1
    nlinarith
  have hA0 : (0 : ℚ) < S + nQ * E := by linarith
  -- assemble
  rw [hA, hptr _ hwi]
  have hsplit : ((Int.floor (sR (ws.get ⟨i, hi⟩)) : ℚ) + E) / (S + nQ * E) - P =
      (((Int.floor (sR (ws.get ⟨i, hi⟩)) : ℚ) + E) - P * (S + nQ * E)) /
        (S + nQ * E) := by
    field_simp
    ring
  rw [show (ws.get ⟨i, hi⟩ : ℚ) / (ws.sum : ℚ) = P from rfl] at *
  rw [hsplit, abs_div, abs_of_pos hA0]
  have hstep1 : |(Int.floor (sR (ws.get ⟨i, hi⟩)) : ℚ) + E - P * (S + nQ * E)| /
      (S + nQ * E) ≤ C0 / (S + nQ * E) := by
    apply (div_le_div_iff_of_pos_right hA0).mpr
    rw [hC0]
    exact hnum
  have hstep2 : C0 / (S + nQ * E) ≤ C0 / (R : ℚ) := by
    apply div_le_div_of_nonneg_left (le_of_lt hC0pos) (by linarith) hAR
  have hstep3 : C0 / (R : ℚ) < ε := by
    rw [div_lt_iff₀ (by linarith)]
    have hceil : C0 / ε ≤ ((Int.ceil (C0 / ε)).toNat : ℚ) := by
      calc C0 / ε ≤ ((Int.ceil (C0 / ε) : ℤ) : ℚ) := Int.le_ceil _
        _ ≤ ((Int.ceil (C0 / ε)).toNat : ℚ) := by exact_mod_cast Int.self_le_toNat _
    have hRbig : ((Int.ceil (C0 / ε)).toNat : ℚ) + 1 ≤ (R : ℚ) := by
      exact_mod_cast hR
    have hlt : C0 / ε < (R : ℚ) := by linarith
    rw [div_lt_iff₀ hε] at hlt
    linarith [hlt]
  linarith [lt_of_le_of_lt (le_trans hstep1 hstep2) hstep3]

/-- C2, witness: the theorem instantiated at weights `[1, 2]`, node 0 and
tolerance `1/10`. -/
theorem C2_weighted_proportionality_witness :
    (∀ R : Nat,
      (pointerPerServer (([1, 2] : List Int).get ⟨0, by decide⟩) ([1, 2] : List Int).sum
          R ([1, 2] : List Int).length : ℤ) =
        Int.floor ((([1, 2] : List Int).get ⟨0, by decide⟩ : ℚ) /
            (([1, 2] : List Int).sum : ℚ) * (R : ℚ) *
            (([1, 2] : List Int).length : ℚ)) + 10 ^ 10) ∧
    ∃ R₀ : Nat, ∀ R : Nat, R₀ ≤ R →
      |(pointerPerServer (([1, 2] : List Int).get ⟨0, by decide⟩)
            ([1, 2] : List Int).sum R ([1, 2] : List Int).length : ℚ) /
          (([1, 2] : List Int).map
            (fun w : ℤ => (pointerPerServer w ([1, 2] : List Int).sum R
              ([1, 2] : List Int).length : ℚ))).sum -
        (([1, 2] : List Int).get ⟨0, by decide⟩ : ℚ) /
          (([1, 2] : List Int).sum : ℚ)| < 1 / 10 :=
  C2_weighted_proportionality [1, 2] 0 (by decide) (by decide) (1 / 10) (by norm_num)

/-- C7, witness at a concrete non-empty reachable ring. -/
theorem C7_resolution_rule_witness :
    (∀ n, mapGet cexSt3.nodeByKey (cexCaps.keyHash "k") = some n →
      Get cexCaps cexSt3 "k" = some n) ∧
    (mapGet cexSt3.nodeByKey (cexCaps.keyHash "k") = none →
      (∃ p ∈ cexSt3.sortedKeys, cexCaps.keyHash "k" ≤ p) →
      ∃ q n, Get cexCaps cexSt3 "k" = some n ∧ q ∈ cexSt3.sortedKeys ∧
        cexCaps.keyHash "k" ≤ q ∧
        (∀ r ∈ cexSt3.sortedKeys, cexCaps.keyHash "k" ≤ r → q ≤ r) ∧
        mapGet cexSt3.nodeByKey q = some n) ∧
    (mapGet cexSt3.nodeByKey (cexCaps.keyHash "k") = none →
      (∀ p ∈ cexSt3.sortedKeys, p < cexCaps.keyHash "k") →
      ∃ q n, Get cexCaps cexSt3 "k" = some n ∧ q ∈ cexSt3.sortedKeys ∧
        (∀ r ∈ cexSt3.sortedKeys, q ≤ r) ∧
        mapGet cexSt3.nodeByKey q = some n) :=
  C7_resolution_rule cexCaps cexSt3 "k" cexSt3_reachable (by decide)

end HashRingSpec
